import Mathlib

/-!
Shallow embedding of the timeline engine of `tuneflow_py/models/song.py`
(the `Song` class): tempo map, time-signature map and structure-marker
timeline, together with the tick/second conversion.

Modelling conventions:
* Python `float` values (`bpm`, `time`) are modelled as exact rationals `ℚ`.
* Tick values are modelled as `ℕ`, following the data model of the spec
  ("non-negative integer").
* Python exceptions are modelled with `Except (String × Song) Song`; the
  error value carries the state of the song at the moment the exception is
  raised, so that atomicity ("the list is left unchanged") is expressible.
* Protobuf repeated-field semantics matter in two places and are modelled
  faithfully:
  - `RepeatedCompositeFieldContainer.insert/append/extend` copy the message
    (which is why the Python source re-attaches wrappers after inserting,
    e.g. `tempo_change._proto = self._proto.tempos[insert_index]`).
    Consequently `retiming_tempo_events`, which rebuilds the tempo list via
    `del tempos[:]` followed by `extend(sorted_tempos)`, replaces every
    element by a fresh copy and detaches every previously obtained wrapper.
  - `RepeatedCompositeFieldContainer.sort` and `pop` work in place and keep
    element identity, so structure-marker wrappers stay attached across
    `remove_structure`.
-/

/-- A tempo change event: `ticks` (non-negative integer per the data model),
`bpm`, and the derived `time` field (seconds). -/
structure TempoEvent where
  ticks : ℕ
  bpm : ℚ
  time : ℚ
deriving DecidableEq, Repr

/-- A time-signature change event. -/
structure TimeSignatureEvent where
  ticks : ℕ
  numerator : ℕ
  denominator : ℕ
deriving DecidableEq, Repr

/-- A structure (section) marker.  The structure type enum is modelled as `ℕ`. -/
structure StructureMarker where
  tick : ℕ
  type : ℕ
  customName : Option String := none
deriving DecidableEq, Repr

/-- The timeline-relevant fields of `Song`: `PPQ` resolution and the three
event lists. -/
structure Song where
  resolution : ℕ
  tempos : List TempoEvent
  time_signatures : List TimeSignatureEvent
  structures : List StructureMarker
deriving DecidableEq, Repr

def dummyTempo : TempoEvent := ⟨0, 0, 0⟩

def dummyMarker : StructureMarker := ⟨0, 0, none⟩

/-- Modelled from the spec: `lower_equal` of `tuneflow_py.utils` (the utils
module is not part of the provided sources).  Per the spec it is `find_floor`:
the index of the rightmost item with `key item ≤ probe`, or `-1` when there is
none, with the sequence assumed sorted by `key`.  On a sorted sequence that
index is exactly `(number of items whose key is ≤ probe) - 1`, which is the
executable form used here. -/
def lower_equal {α : Type} (l : List α) (key : α → ℕ) (probe : ℕ) : ℤ :=
  (l.countP (fun x => decide (key x ≤ probe)) : ℤ) - 1

/-- Modelled from the spec: `lower_than` of `tuneflow_py.utils` (not in the
provided sources).  Per the spec it is `find_strict_floor`: the index of the
rightmost item with `key item < probe`, or `-1` when there is none, the
sequence being sorted by `key`.  On a sorted sequence that index equals
`(number of items whose key is < probe) - 1`. -/
def lower_than {α : Type} (l : List α) (key : α → ℕ) (probe : ℕ) : ℤ :=
  (l.countP (fun x => decide (key x < probe)) : ℤ) - 1

/-- Modelled from the spec: `greater_equal` of `tuneflow_py.utils` (not in the
provided sources).  Per the spec it is `find_ceiling`: the index of the
leftmost item with `key item ≥ probe`, or a negative value when there is none
(signalling append-at-end), the sequence being sorted by `key`.  On a sorted
sequence the leftmost such index equals the number of items with key `< probe`. -/
def greater_equal {α : Type} (l : List α) (key : α → ℕ) (probe : ℕ) : ℤ :=
  if l.countP (fun x => decide (probe ≤ key x)) = 0 then -1
  else (l.countP (fun x => decide (key x < probe)) : ℤ)

/-- `Song._tempo_bpm_to_ticks_per_second`. -/
def tempo_bpm_to_ticks_per_second (bpm : ℚ) (ppq : ℕ) : ℚ :=
  bpm * (ppq : ℚ) / 60

/-- `Song.tick_to_seconds`, as a function of the resolution and the tempo
list.  `tick == 0` short-circuits to `0`; otherwise the base segment is the
strict floor by ticks (falling back to index 0).  On an empty tempo list with
`tick ≠ 0` the Python code raises `IndexError`; that case is unreachable in
every use below (the tempo list is kept non-empty) and the model returns the
junk value `0` there (`getD` default with bpm 0). -/
def tickToSecondsList (ppq : ℕ) (tempos : List TempoEvent) (tick : ℕ) : ℚ :=
  if tick = 0 then 0
  else
    let bi : ℤ := lower_than tempos (fun e => e.ticks) tick
    let bi : ℤ := if bi = -1 then 0 else bi
    let base := tempos.getD bi.toNat dummyTempo
    base.time + ((tick : ℚ) - (base.ticks : ℚ)) / tempo_bpm_to_ticks_per_second base.bpm ppq

def Song.tick_to_seconds (s : Song) (tick : ℕ) : ℚ :=
  tickToSecondsList s.resolution s.tempos tick

/-- The comparison key used by Python `sorted(tempos, key=lambda t: t.ticks)`. -/
def tempoLE (a b : TempoEvent) : Prop := a.ticks ≤ b.ticks

instance : DecidableRel tempoLE := fun a b => Nat.decLe a.ticks b.ticks

instance : IsTotal TempoEvent tempoLE := ⟨fun a b => Nat.le_total a.ticks b.ticks⟩

instance : IsTrans TempoEvent tempoLE := ⟨fun _ _ _ => Nat.le_trans⟩

/-- Python `sorted(..., key=lambda tempo: tempo.ticks)`: a stable sort by
ticks.  Insertion sort with a `≤` comparison is stable, matching Python. -/
def sortTempos (l : List TempoEvent) : List TempoEvent :=
  l.insertionSort tempoLE

/-- The re-timing loop of `Song.retiming_tempo_events`: walk the (sorted)
list left to right, recomputing each event's `time` with `tick_to_seconds`
evaluated on the current list (already-updated prefix, still-stale tail). -/
def retimeLoop (ppq : ℕ) (done : List TempoEvent) : List TempoEvent → List TempoEvent
  | [] => done
  | e :: rest =>
    retimeLoop ppq
      (done ++ [{ e with time := tickToSecondsList ppq (done ++ e :: rest) e.ticks }]) rest

/-- `Song.retiming_tempo_events` on the tempo list: re-sort by ticks, then
recompute every `time` field in ascending order. -/
def retimeTempos (ppq : ℕ) (l : List TempoEvent) : List TempoEvent :=
  retimeLoop ppq [] (sortTempos l)

def Song.retiming_tempo_events (s : Song) : Song :=
  { s with tempos := retimeTempos s.resolution s.tempos }

/-- `Song.create_tempo_change`.  The new event's `time` is computed on the
pre-insertion list; the insertion point is `greater_equal` (find_ceiling) by
ticks; a negative result means append.  Note the Python code inserts *before*
the ceiling slot and never deletes an existing event at the same tick.  Ends
with the re-timing cascade. -/
def Song.create_tempo_change (s : Song) (ticks : ℕ) (bpm : ℚ) :
    Except (String × Song) Song :=
  if s.resolution ≤ 0 then
    .error ("Song resolution must be provided before creating tempo changes.", s)
  else if s.tempos.length = 0 ∧ ticks ≠ 0 then
    .error ("The first tempo event must be at tick 0", s)
  else
    let tempo_change : TempoEvent := ⟨ticks, bpm, s.tick_to_seconds ticks⟩
    let insert_index := greater_equal s.tempos (fun e => e.ticks) ticks
    let s1 :=
      if insert_index < 0 then { s with tempos := s.tempos ++ [tempo_change] }
      else { s with tempos := s.tempos.insertIdx insert_index.toNat tempo_change }
    .ok s1.retiming_tempo_events

/-- `Song.remove_tempo_change_at`.  Python `pop(index)` raises `IndexError`
when the index is out of range (after the two guard exceptions); all three
raises happen before any state change. -/
def Song.remove_tempo_change_at (s : Song) (index : ℕ) :
    Except (String × Song) Song :=
  if s.tempos.length ≤ 1 then
    .error ("Song has to have at least one tempo change. Update the last tempo change instead.", s)
  else if index = 0 then
    .error ("Cannot remove the first tempo.", s)
  else if s.tempos.length ≤ index then
    .error ("IndexError: pop index out of range", s)
  else
    .ok ({ s with tempos := s.tempos.eraseIdx index }).retiming_tempo_events

/-- `Song.move_tempo`.  Out-of-range index and index 0 return with no change.
If the destination tick collides with the previous or next event, that
neighbour is removed via `remove_tempo_change_at` (which can itself raise:
removing index 0 is forbidden, so moving event 1 onto the first event's tick
raises and leaves the song unchanged).

In the two collision branches, `remove_tempo_change_at` runs
`retiming_tempo_events`, which rebuilds the protobuf repeated field with
copies (`del tempos[:]` + `extend`); the `tempo` wrapper obtained before the
removal is therefore detached, and the subsequent `tempo.set_ticks(...)`
mutates a dead copy: the song's list is not affected by it.  Only in the
no-collision branch does `set_ticks` actually update the song. -/
def Song.move_tempo (s : Song) (tempo_index : ℕ) (move_to_tick : ℕ) :
    Except (String × Song) Song :=
  if tempo_index < s.tempos.length then
    if tempo_index = 0 then .ok s
    else
      let prev := s.tempos.getD (tempo_index - 1) dummyTempo
      if prev.ticks = move_to_tick then
        match s.remove_tempo_change_at (tempo_index - 1) with
        | .error e => .error e
        | .ok s1 => .ok s1.retiming_tempo_events
      else if tempo_index < s.tempos.length - 1 ∧
          (s.tempos.getD (tempo_index + 1) dummyTempo).ticks = move_to_tick then
        match s.remove_tempo_change_at (tempo_index + 1) with
        | .error e => .error e
        | .ok s1 => .ok s1.retiming_tempo_events
      else
        let t := s.tempos.getD tempo_index dummyTempo
        .ok ({ s with
          tempos := s.tempos.set tempo_index { t with ticks := move_to_tick }
        }).retiming_tempo_events
  else .ok s

/-- The loop of `Song.overwrite_tempo_changes`: re-insert the remaining
sorted events one at a time through `create_tempo_change`, propagating any
exception together with the state at the moment it was raised. -/
def createFold (l : List TempoEvent) (s : Song) : Except (String × Song) Song :=
  match l with
  | [] => .ok s
  | e :: rest =>
    match s.create_tempo_change e.ticks e.bpm with
    | .error err => .error err
    | .ok s2 => createFold rest s2

/-- `Song.overwrite_tempo_changes`: reject empty input and a non-zero first
tick (both checks run before the list is touched); otherwise replace the list
with a tick-0 anchor carrying the earliest event's bpm, re-insert the rest
through `create_tempo_change`, and finish with a re-timing cascade. -/
def Song.overwrite_tempo_changes (s : Song) (tempo_events : List TempoEvent) :
    Except (String × Song) Song :=
  if tempo_events = [] then
    .error ("Cannot clear all the tempo events.", s)
  else
    let sorted_tempo_events := sortTempos tempo_events
    let first_tempo_event := sorted_tempo_events.headD dummyTempo
    if 0 < first_tempo_event.ticks then
      .error ("The first tempo event needs to start from tick 0", s)
    else
      let s1 : Song := { s with tempos := [⟨0, first_tempo_event.bpm, 0⟩] }
      match createFold (sorted_tempo_events.drop 1) s1 with
      | .error err => .error err
      | .ok s2 => .ok s2.retiming_tempo_events

/-- `Song.create_time_signature`: `greater_equal` (find_ceiling) insertion
point by ticks; negative means append, otherwise insert *before* that slot
(never deleting an existing event at the same tick).  No cascade. -/
def Song.create_time_signature (s : Song) (ticks numerator denominator : ℕ) : Song :=
  let e : TimeSignatureEvent := ⟨ticks, numerator, denominator⟩
  let insert_index := greater_equal s.time_signatures (fun x => x.ticks) ticks
  if insert_index < 0 then { s with time_signatures := s.time_signatures ++ [e] }
  else { s with time_signatures := s.time_signatures.insertIdx insert_index.toNat e }

/-- `Song.overwrite_time_signature_changes`: reject empty input; otherwise
clear the list and add the given events in the given order (no sorting, no
deduplication). -/
def Song.overwrite_time_signature_changes (s : Song) (evs : List TimeSignatureEvent) :
    Except (String × Song) Song :=
  if evs = [] then .error ("At least one time signature needs to be present.", s)
  else .ok { s with time_signatures := evs }

/-- `Song.get_structure_at_tick`, mirroring the Python index arithmetic on
the `lower_equal` (find_floor) result: clamp negative to 0, clamp to the last
index, and return `None` only when the index is still `-1` (which happens
exactly for the empty list). -/
def Song.get_structure_at_tick (s : Song) (tick : ℕ) : Option StructureMarker :=
  let index := lower_equal s.structures (fun m => m.tick) tick
  let index := if index < 0 then 0 else index
  let index : ℤ :=
    if (s.structures.length : ℤ) ≤ index then (s.structures.length : ℤ) - 1 else index
  if index = -1 then none
  else some (s.structures.getD index.toNat dummyMarker)

/-- The index form of the floor lookup used by `update_structure_at_tick`
(meaningful when the structure list is non-empty): the clamped
`lower_equal` index. -/
def structureFloorIdx (s : Song) (tick : ℕ) : ℕ :=
  let c := s.structures.countP (fun m => decide (m.tick ≤ tick))
  if c = 0 then 0 else c - 1

/-- The comparison key of Python `structures.sort(key=lambda x: x.tick)`. -/
def markerLE (a b : StructureMarker) : Prop := a.tick ≤ b.tick

instance : DecidableRel markerLE := fun a b => Nat.decLe a.tick b.tick

instance : IsTotal StructureMarker markerLE := ⟨fun a b => Nat.le_total a.tick b.tick⟩

instance : IsTrans StructureMarker markerLE := ⟨fun _ _ _ => Nat.le_trans⟩

/-- Python `structures.sort(key=lambda x: x.tick)`: stable in-place sort. -/
def sortMarkers (l : List StructureMarker) : List StructureMarker :=
  l.insertionSort markerLE

/-- `Song.create_structure`: append the new marker; if it is the only one,
force its tick to 0; then sort by tick. -/
def Song.create_structure (s : Song) (tick : ℕ) (ty : ℕ)
    (custom_name : Option String) : Song :=
  let appended := s.structures ++ [⟨tick, ty, custom_name⟩]
  let adjusted :=
    if appended.length = 1 then [(⟨0, ty, custom_name⟩ : StructureMarker)] else appended
  { s with structures := sortMarkers adjusted }

/-- The list update of `Song.remove_structure` after the `pop`: if markers
remain and the first one does not start at tick 0, move it to 0. -/
def repairFirstMarker (l : List StructureMarker) : List StructureMarker :=
  match l with
  | [] => []
  | m :: rest => if 0 < m.tick then { m with tick := 0 } :: rest else m :: rest

/-- `Song.remove_structure`: out-of-range index is a no-op; otherwise pop,
repair the first remaining marker to tick 0 when needed, and sort. -/
def Song.remove_structure (s : Song) (index : ℕ) : Song :=
  if s.structures.length ≤ index then s
  else { s with structures := sortMarkers (repairFirstMarker (s.structures.eraseIdx index)) }

/-- `Song.update_structure_at_tick`: the Python code looks up the marker by
`get_structure_at_tick` (a floor lookup, not an exact-match lookup).  A
`StructureMarker` instance is always truthy, so the `else` branch (creating a
new marker) runs only when the lookup returns `None`, i.e. when the list is
empty; otherwise the found marker's type is changed in place (no re-sort). -/
def Song.update_structure_at_tick (s : Song) (tick : ℕ) (ty : ℕ) : Song :=
  match s.get_structure_at_tick tick with
  | none => s.create_structure tick ty none
  | some _ =>
    let i := structureFloorIdx s tick
    { s with structures := s.structures.set i { s.structures.getD i dummyMarker with type := ty } }

/-- Python object identity for structure markers, modelled by tagging each
marker with its original index.  `structures.sort` and `pop` keep identity
(they permute the same message objects), so a mutation through a wrapper held
across them still hits the song's list. -/
def tagMarkers (l : List StructureMarker) : List (ℕ × StructureMarker) :=
  l.enum

/-- The tagged sort, keyed on the marker's tick (stable, like Python). -/
def markerTagLE (a b : ℕ × StructureMarker) : Prop := a.2.tick ≤ b.2.tick

instance : DecidableRel markerTagLE := fun a b => Nat.decLe a.2.tick b.2.tick

instance : IsTotal (ℕ × StructureMarker) markerTagLE :=
  ⟨fun a b => Nat.le_total a.2.tick b.2.tick⟩

instance : IsTrans (ℕ × StructureMarker) markerTagLE := ⟨fun _ _ _ => Nat.le_trans⟩

def sortTaggedMarkers (l : List (ℕ × StructureMarker)) : List (ℕ × StructureMarker) :=
  l.insertionSort markerTagLE

/-- `Song.remove_structure` acting on the tagged list (used inside
`move_structure`, where a wrapper is held across the removal): bounds check,
pop, positional repair of the first remaining marker, stable sort. -/
def removeTaggedStructure (l : List (ℕ × StructureMarker)) (i : ℕ) :
    List (ℕ × StructureMarker) :=
  if l.length ≤ i then l
  else
    sortTaggedMarkers
      (match l.eraseIdx i with
       | [] => []
       | (t, m) :: rest =>
         if 0 < m.tick then (t, { m with tick := 0 }) :: rest else (t, m) :: rest)

/-- `Song.move_structure`: out-of-range and index 0 are no-ops.  A collision
with the previous marker's tick removes the previous marker; otherwise a
collision with the next marker's tick removes the next one.  Then the held
marker (identified by its tag, i.e. Python object identity) gets the new
tick, and the list is sorted.  Unlike the tempo case, the wrapper stays
attached across `remove_structure` (in-place `pop`/`sort`), so the tick
update is effective. -/
def Song.move_structure (s : Song) (structure_index : ℕ) (move_to_tick : ℕ) : Song :=
  if structure_index < s.structures.length then
    if structure_index = 0 then s
    else
      let tagged := tagMarkers s.structures
      let prevTick := (s.structures.getD (structure_index - 1) dummyMarker).tick
      let afterCollision :=
        if prevTick = move_to_tick then
          removeTaggedStructure tagged (structure_index - 1)
        else if structure_index < s.structures.length - 1 ∧
            (s.structures.getD (structure_index + 1) dummyMarker).tick = move_to_tick then
          removeTaggedStructure tagged (structure_index + 1)
        else tagged
      let moved := afterCollision.map (fun p =>
        if p.1 = structure_index then (p.1, { p.2 with tick := move_to_tick }) else p)
      { s with structures := (sortTaggedMarkers moved).map (fun p => p.2) }
  else s

/-! ## Invariants and the piecewise-linear integral -/

/-- The tempo list is (weakly) sorted by ticks. -/
def TicksSorted (l : List TempoEvent) : Prop := List.Sorted tempoLE l

/-- The tempo list is strictly sorted by ticks (no duplicate ticks). -/
def TicksStrictSorted (l : List TempoEvent) : Prop :=
  List.Pairwise (fun a b : TempoEvent => a.ticks < b.ticks) l

instance (l : List TempoEvent) : Decidable (TicksSorted l) := by
  unfold TicksSorted; exact List.decidableSorted l

instance (l : List TempoEvent) : Decidable (TicksStrictSorted l) := by
  unfold TicksStrictSorted; infer_instance

/-- Expected `time` values of the events after a known previous segment
boundary (`prevTicks`, `prevBpm`, `prevTime`): each event's time adds the
duration of the tick span from the previous event, converted at the previous
event's tempo. -/
def integralFrom (ppq : ℕ) (prevTicks : ℕ) (prevBpm : ℚ) (prevTime : ℚ) :
    List TempoEvent → List ℚ
  | [] => []
  | e :: rest =>
    (prevTime + ((e.ticks : ℚ) - (prevTicks : ℚ)) / tempo_bpm_to_ticks_per_second prevBpm ppq) ::
      integralFrom ppq e.ticks e.bpm
        (prevTime + ((e.ticks : ℚ) - (prevTicks : ℚ)) / tempo_bpm_to_ticks_per_second prevBpm ppq)
        rest

/-- The piecewise-linear integral of tick duration over all preceding tempo
segments back to tick 0: the first (tick-0) event gets time 0 and each later
event adds the preceding segment's duration. -/
def integralTimes (ppq : ℕ) : List TempoEvent → List ℚ
  | [] => []
  | e :: rest => 0 :: integralFrom ppq e.ticks e.bpm 0 rest

/-- Adjacent-event consistency of the cached `time` fields: each event's time
is the previous event's time plus the duration of the segment between them. -/
def timeStep (ppq : ℕ) (a b : TempoEvent) : Prop :=
  b.time = a.time + ((b.ticks : ℚ) - (a.ticks : ℚ)) / tempo_bpm_to_ticks_per_second a.bpm ppq

instance (ppq : ℕ) : DecidableRel (timeStep ppq) := fun a b => by
  unfold timeStep; infer_instance

def TimesChain (ppq : ℕ) (l : List TempoEvent) : Prop := List.Chain' (timeStep ppq) l

instance (ppq : ℕ) (l : List TempoEvent) : Decidable (TimesChain ppq l) := by
  unfold TimesChain; infer_instance

/-- The tempo-map invariants of the spec: non-empty, strictly sorted by
ticks, anchored at tick 0, `time` fields equal to the integral, positive
resolution, and positive bpm values (data model: "bpm: positive real"). -/
def TempoInv (s : Song) : Prop :=
  s.tempos ≠ [] ∧ TicksStrictSorted s.tempos ∧ (s.tempos.headD dummyTempo).ticks = 0 ∧
  s.tempos.map (fun e => e.time) = integralTimes s.resolution s.tempos ∧
  0 < s.resolution ∧ ∀ e ∈ s.tempos, 0 < e.bpm

instance (s : Song) : Decidable (TempoInv s) := by
  unfold TempoInv; infer_instance

/-- Post-state property asserted by the spec for every tempo mutation: every
`time` field equals the recomputed integral, and re-running the cascade is a
no-op. -/
def TempoRetimed (s : Song) : Prop :=
  s.tempos.map (fun e => e.time) = integralTimes s.resolution s.tempos ∧
  s.retiming_tempo_events = s

instance (s : Song) : Decidable (TempoRetimed s) := by
  unfold TempoRetimed; infer_instance

/-! ## Basic lemmas about the base-segment lookup -/

/-- The base index of `tick_to_seconds` in counting form: the clamped strict
floor index is `(number of events with ticks < T) - 1` in `ℕ` (truncated
subtraction covers the fallback-to-0 case). -/
theorem tickToSecondsList_eq (ppq : ℕ) (l : List TempoEvent) (T : ℕ) :
    tickToSecondsList ppq l T =
      if T = 0 then 0
      else
        (l.getD (l.countP (fun e => decide (e.ticks < T)) - 1) dummyTempo).time +
          ((T : ℚ) -
            ((l.getD (l.countP (fun e => decide (e.ticks < T)) - 1) dummyTempo).ticks : ℚ)) /
            tempo_bpm_to_ticks_per_second
              (l.getD (l.countP (fun e => decide (e.ticks < T)) - 1) dummyTempo).bpm ppq := by
  by_cases hT : T = 0
  · simp [tickToSecondsList, hT]
  · unfold tickToSecondsList lower_than
    simp only [hT, if_false]
    have harith :
        (if (l.countP (fun e => decide (e.ticks < T)) : ℤ) - 1 = -1 then (0 : ℤ)
          else (l.countP (fun e => decide (e.ticks < T)) : ℤ) - 1).toNat =
          l.countP (fun e => decide (e.ticks < T)) - 1 := by
      rcases Nat.eq_zero_or_pos (l.countP (fun e => decide (e.ticks < T))) with h | h
      · simp [h]
      · rw [if_neg (by omega)]
        omega
    rw [harith]

/-- On a ticks-sorted list, the events with ticks `< T` form a prefix: the
`i`-th event has ticks `< T` exactly when `i` is below the count. -/
theorem sorted_get_lt_count_iff {l : List TempoEvent} (hs : TicksSorted l) (T : ℕ) :
    ∀ (i : ℕ) (h : i < l.length),
      ((l.get ⟨i, h⟩).ticks < T ↔ i < l.countP (fun e => decide (e.ticks < T))) := by
  induction l with
  | nil => intro i h; exact absurd h (by simp)
  | cons a tl ih =>
    have hpair := List.pairwise_cons.mp hs
    have ha : ∀ y ∈ tl, a.ticks ≤ y.ticks := hpair.1
    have ihtl := ih hpair.2
    intro i h
    have hcount : (a :: tl).countP (fun e => decide (e.ticks < T)) =
        tl.countP (fun e => decide (e.ticks < T)) + (if a.ticks < T then 1 else 0) := by
      rw [List.countP_cons]
      by_cases hx : a.ticks < T <;> simp [hx]
    rw [hcount]
    by_cases haT : a.ticks < T
    · rw [if_pos haT]
      cases i with
      | zero =>
        constructor
        · intro _; omega
        · intro _; exact haT
      | succ n =>
        have hn : n < tl.length := by simpa using h
        rw [show ((a :: tl).get ⟨n + 1, h⟩) = tl.get ⟨n, hn⟩ from rfl, ihtl n hn]
        omega
    · rw [if_neg haT, Nat.add_zero]
      have htl0 : tl.countP (fun e => decide (e.ticks < T)) = 0 := by
        refine List.countP_eq_zero.mpr ?_
        intro e he
        have := ha e he
        simp only [decide_eq_true_eq]
        omega
      rw [htl0]
      cases i with
      | zero =>
        constructor
        · intro hx; exact absurd hx haT
        · intro hx; omega
      | succ n =>
        have hn : n < tl.length := by simpa using h
        rw [show ((a :: tl).get ⟨n + 1, h⟩) = tl.get ⟨n, hn⟩ from rfl, ihtl n hn, htl0]
        omega

/-- Appending events whose ticks are not below the probe does not change
`tick_to_seconds` (the base lookup stays inside the first part). -/
theorem tts_append_right_irrel (ppq : ℕ) (l₁ l₂ : List TempoEvent) (T : ℕ)
    (h₁ : l₁ ≠ []) (h₂ : ∀ e ∈ l₂, ¬ e.ticks < T) :
    tickToSecondsList ppq (l₁ ++ l₂) T = tickToSecondsList ppq l₁ T := by
  rw [tickToSecondsList_eq, tickToSecondsList_eq]
  by_cases hT : T = 0
  · simp [hT]
  · simp only [hT, if_false]
    have hc2 : l₂.countP (fun e => decide (e.ticks < T)) = 0 := by
      refine List.countP_eq_zero.mpr ?_
      intro e he
      simpa using h₂ e he
    have hlt : l₁.countP (fun e => decide (e.ticks < T)) - 1 < l₁.length := by
      have h1 : l₁.countP (fun e => decide (e.ticks < T)) ≤ l₁.length :=
        List.countP_le_length _
      have h2 : 0 < l₁.length := List.length_pos.mpr h₁
      omega
    rw [List.countP_append, hc2, Nat.add_zero, List.getD_append _ _ _ _ hlt]

/-! ## Consistent times: chain form, integral form, fixed-point form -/

/-- Time-map equality with `integralFrom` seeded at event `a` is exactly
adjacent-step consistency of `a :: l`. -/
theorem map_time_integralFrom_iff (ppq : ℕ) :
    ∀ (l : List TempoEvent) (a : TempoEvent),
      (l.map (fun e => e.time) = integralFrom ppq a.ticks a.bpm a.time l ↔
        List.Chain' (timeStep ppq) (a :: l)) := by
  intro l
  induction l with
  | nil => intro a; simp [integralFrom]
  | cons e rest ih =>
    intro a
    simp only [List.map_cons, integralFrom]
    constructor
    · intro h
      obtain ⟨h1, h2⟩ := List.cons_eq_cons.mp h
      rw [List.chain'_cons]
      refine ⟨h1, ?_⟩
      rw [← h1] at h2
      exact (ih e).mp h2
    · intro h
      obtain ⟨h1, h2⟩ := List.chain'_cons.mp h
      have h1' : e.time = a.time +
          ((e.ticks : ℚ) - (a.ticks : ℚ)) / tempo_bpm_to_ticks_per_second a.bpm ppq := h1
      refine List.cons_eq_cons.mpr ⟨h1', ?_⟩
      rw [← h1']
      exact (ih e).mpr h2

/-- The `time` fields equal the integral exactly when the list is empty or
its first time is 0 and adjacent steps are consistent. -/
theorem map_time_eq_integral_iff (ppq : ℕ) (l : List TempoEvent) :
    l.map (fun e => e.time) = integralTimes ppq l ↔
      (l = [] ∨ ((l.headD dummyTempo).time = 0 ∧ TimesChain ppq l)) := by
  cases l with
  | nil => simp [integralTimes]
  | cons e rest =>
    simp only [integralTimes, List.map_cons, List.headD_cons, TimesChain]
    constructor
    · intro h
      obtain ⟨h1, h2⟩ := List.cons_eq_cons.mp h
      refine Or.inr ⟨h1, ?_⟩
      rw [← h1] at h2
      exact (map_time_integralFrom_iff ppq rest e).mp h2
    · rintro (h | ⟨h1, h2⟩)
      · exact absurd h (by simp)
      · have h3 := (map_time_integralFrom_iff ppq rest e).mpr h2
        rw [h1] at h3
        exact List.cons_eq_cons.mpr ⟨h1, h3⟩

/-- On a sorted, tick-0-anchored, consistently-timed list, every stored
`time` equals the value `tick_to_seconds` computes for that event's tick. -/
theorem times_fixed_of_chain (ppq : ℕ) {l : List TempoEvent} (hs : TicksSorted l)
    (h0 : (l.headD dummyTempo).ticks = 0) (ht0 : (l.headD dummyTempo).time = 0)
    (hc : TimesChain ppq l) :
    ∀ (i : ℕ) (h : i < l.length),
      (l.get ⟨i, h⟩).time = tickToSecondsList ppq l (l.get ⟨i, h⟩).ticks := by
  have hmono : ∀ (i j : ℕ) (hi : i < l.length) (hj : j < l.length), i ≤ j →
      (l.get ⟨i, hi⟩).ticks ≤ (l.get ⟨j, hj⟩).ticks := by
    intro i j hi hj hij
    rcases Nat.lt_or_ge i j with hlt | hge
    · exact List.pairwise_iff_get.mp hs ⟨i, hi⟩ ⟨j, hj⟩ hlt
    · have : i = j := by omega
      subst this
      exact le_rfl
  have hchain : ∀ (i : ℕ) (h : i < l.length - 1),
      timeStep ppq (l.get ⟨i, by omega⟩) (l.get ⟨i + 1, by omega⟩) :=
    List.chain'_iff_get.mp hc
  have hhead : ∀ (hne : 0 < l.length), l.get ⟨0, hne⟩ = l.headD dummyTempo := by
    intro hne
    cases l with
    | nil => simp at hne
    | cons x xs => rfl
  intro i
  induction i using Nat.strong_induction_on with
  | _ i IH =>
    intro h
    by_cases hT : (l.get ⟨i, h⟩).ticks = 0
    · have htts : tickToSecondsList ppq l (l.get ⟨i, h⟩).ticks = 0 := by
        rw [hT]; simp [tickToSecondsList]
      rw [htts]
      -- descend along the run of tick-0 events to the head
      clear hchain
      induction i with
      | zero => rw [hhead (by omega)]; exact ht0
      | succ n ihn =>
        have hn : n < l.length := by omega
        have ha0 : (l.get ⟨n, hn⟩).ticks = 0 := by
          have := hmono n (n + 1) hn h (by omega)
          omega
        have hstep := List.chain'_iff_get.mp hc n (by omega)
        have hstep' : (l.get ⟨n + 1, h⟩).time = (l.get ⟨n, hn⟩).time +
            (((l.get ⟨n + 1, h⟩).ticks : ℚ) - ((l.get ⟨n, hn⟩).ticks : ℚ)) /
              tempo_bpm_to_ticks_per_second (l.get ⟨n, hn⟩).bpm ppq := hstep
        rw [hT, ha0] at hstep'
        simp only [Nat.cast_zero, sub_self, zero_div, add_zero] at hstep'
        rw [hstep']
        have hprev := IH n (by omega) hn
        have httsn : tickToSecondsList ppq l (l.get ⟨n, hn⟩).ticks = 0 := by
          rw [ha0]; simp [tickToSecondsList]
        rw [httsn] at hprev
        exact hprev
    · -- positive tick: the base segment is the strict-floor event
      have hne : 0 < l.length := by omega
      set T := (l.get ⟨i, h⟩).ticks with hTdef
      set c := l.countP (fun e => decide (e.ticks < T)) with hcdef
      have hc1 : 1 ≤ c := by
        have hmem : l.get ⟨0, hne⟩ ∈ l := l.get_mem _ _
        have h0' : (l.get ⟨0, hne⟩).ticks = 0 := by rw [hhead hne]; exact h0
        have : 0 < c := by
          rw [hcdef]
          refine List.countP_pos.mpr ⟨l.get ⟨0, hne⟩, hmem, ?_⟩
          simp only [decide_eq_true_eq]
          omega
        omega
      have hci : c ≤ i := by
        by_contra hcon
        have := (sorted_get_lt_count_iff hs T i h).mpr (by omega)
        omega
      have hcl : c - 1 < l.length := by omega
      have hbase_lt : (l.get ⟨c - 1, hcl⟩).ticks < T :=
        (sorted_get_lt_count_iff hs T (c - 1) hcl).mpr (by omega)
      rw [tickToSecondsList_eq, if_neg hT, List.getD_eq_get _ _ (by rw [← hcdef]; exact hcl)]
      rcases Nat.lt_or_ge c (i + 1) with hgt | hle
      · -- c < i + 1 and c ≤ i; case split on c = i vs c < i
        rcases Nat.eq_or_lt_of_le hci with heq | hlt
        · -- i = c: the chain step from the base to this event is the formula
          have hstep := List.chain'_iff_get.mp hc (c - 1) (by omega)
          have hidx : c - 1 + 1 = i := by omega
          have hstep' : (l.get ⟨c - 1 + 1, by omega⟩).time = (l.get ⟨c - 1, hcl⟩).time +
              (((l.get ⟨c - 1 + 1, by omega⟩).ticks : ℚ) - ((l.get ⟨c - 1, hcl⟩).ticks : ℚ)) /
                tempo_bpm_to_ticks_per_second (l.get ⟨c - 1, hcl⟩).bpm ppq := hstep
          have hgeteq : l.get ⟨c - 1 + 1, by omega⟩ = l.get ⟨i, h⟩ := by
            congr 1
            exact Fin.ext (show c - 1 + 1 = i by omega)
          rw [hgeteq] at hstep'
          exact hstep'
        · -- c < i: the previous event has the same tick; reuse its value
          have hn : i - 1 < l.length := by omega
          have hprev_ge : ¬ (l.get ⟨i - 1, hn⟩).ticks < T := by
            intro hx
            have := (sorted_get_lt_count_iff hs T (i - 1) hn).mp hx
            omega
          have hprev_le : (l.get ⟨i - 1, hn⟩).ticks ≤ T :=
            hmono (i - 1) i hn h (by omega)
          have hprev_eq : (l.get ⟨i - 1, hn⟩).ticks = T := by omega
          have hstep := List.chain'_iff_get.mp hc (i - 1) (by omega)
          have hidx : i - 1 + 1 = i := by omega
          have hgeteq : l.get ⟨i - 1 + 1, by omega⟩ = l.get ⟨i, h⟩ := by
            congr 1
            exact Fin.ext (show i - 1 + 1 = i by omega)
          have hstep' : (l.get ⟨i, h⟩).time = (l.get ⟨i - 1, hn⟩).time +
              (((l.get ⟨i, h⟩).ticks : ℚ) - ((l.get ⟨i - 1, hn⟩).ticks : ℚ)) /
                tempo_bpm_to_ticks_per_second (l.get ⟨i - 1, hn⟩).bpm ppq := by
            have := hchain (i - 1) (by omega)
            rw [hgeteq] at this
            exact this
          rw [← hTdef, hprev_eq] at hstep'
          simp only [sub_self, zero_div, add_zero] at hstep'
          have hIH := IH (i - 1) (by omega) hn
          rw [hprev_eq] at hIH
          rw [tickToSecondsList_eq, if_neg hT, ← hcdef,
            List.getD_eq_get _ _ hcl] at hIH
          rw [hstep']
          exact hIH
      · omega

/-! ## Re-timing: identity on fixed points, and the loop specification -/

theorem get_append_self (done : List TempoEvent) (e : TempoEvent) (rest : List TempoEvent)
    (h : done.length < (done ++ e :: rest).length) :
    (done ++ e :: rest).get ⟨done.length, h⟩ = e := by
  rw [List.get_eq_getElem, List.getElem_append_right (Nat.le_refl done.length)]
  simp

/-- If every stored time is already the recomputed value, the re-timing loop
reproduces the (already sorted) list unchanged. -/
theorem retimeLoop_id_of_fixed (ppq : ℕ) (l : List TempoEvent)
    (hfix : ∀ (i : ℕ) (h : i < l.length),
      (l.get ⟨i, h⟩).time = tickToSecondsList ppq l (l.get ⟨i, h⟩).ticks) :
    ∀ (todo done : List TempoEvent), done ++ todo = l → retimeLoop ppq done todo = l := by
  intro todo
  induction todo with
  | nil =>
    intro done hd
    rw [retimeLoop]
    simpa using hd
  | cons e rest ih =>
    intro done hd
    subst hd
    have hlen : done.length < (done ++ e :: rest).length := by
      rw [List.length_append]
      simp
    have hget : (done ++ e :: rest).get ⟨done.length, hlen⟩ = e :=
      get_append_self done e rest hlen
    have hfe := hfix done.length hlen
    rw [hget] at hfe
    rw [retimeLoop, ← hfe]
    have heta : { e with time := e.time } = e := rfl
    rw [heta]
    exact ih (done ++ [e]) (by simp)

/-- Recomputing times on an already consistent, sorted list is the identity. -/
theorem retimeTempos_id_of_fixed (ppq : ℕ) (l : List TempoEvent) (hs : TicksSorted l)
    (hfix : ∀ (i : ℕ) (h : i < l.length),
      (l.get ⟨i, h⟩).time = tickToSecondsList ppq l (l.get ⟨i, h⟩).ticks) :
    retimeTempos ppq l = l := by
  unfold retimeTempos sortTempos
  rw [List.Sorted.insertionSort_eq hs]
  exact retimeLoop_id_of_fixed ppq l hfix l [] rfl

/-- For a probe at or past the last event's tick, `tick_to_seconds` on a
consistent list is the last event's time plus the remaining span at the last
event's tempo. -/
theorem tts_last_step (ppq : ℕ) (done : List TempoEvent) (hne : done ≠ [])
    (hs : TicksSorted done) (h0 : (done.headD dummyTempo).ticks = 0)
    (ht0 : (done.headD dummyTempo).time = 0) (hc : TimesChain ppq done)
    (T : ℕ) (hT : (done.getLast hne).ticks ≤ T) :
    tickToSecondsList ppq done T =
      (done.getLast hne).time +
        ((T : ℚ) - ((done.getLast hne).ticks : ℚ)) /
          tempo_bpm_to_ticks_per_second (done.getLast hne).bpm ppq := by
  have hlen : 0 < done.length := List.length_pos.mpr hne
  have hlastget : done.getLast hne = done.get ⟨done.length - 1, by omega⟩ :=
    List.getLast_eq_get done hne
  rcases Nat.eq_or_lt_of_le hT with heq | hlt
  · -- probe equals the last tick: both sides are the last event's time
    have hfix := times_fixed_of_chain ppq hs h0 ht0 hc (done.length - 1) (by omega)
    rw [← hlastget] at hfix
    rw [← heq, sub_self, zero_div, add_zero]
    exact hfix.symm
  · -- probe strictly past the last tick: the base is the last event
    have hT0 : T ≠ 0 := by omega
    have hmax : ∀ y ∈ done, y.ticks ≤ (done.getLast hne).ticks := by
      intro y hy
      obtain ⟨j, hjy⟩ := List.mem_iff_get.mp hy
      have hjlt := j.isLt
      rw [hlastget, ← hjy]
      rcases Nat.lt_or_ge (j : ℕ) (done.length - 1) with hlt2 | hge
      · exact List.pairwise_iff_get.mp hs j ⟨done.length - 1, by omega⟩
          (by rw [Fin.lt_def]; exact hlt2)
      · have hjeq : j = (⟨done.length - 1, by omega⟩ : Fin done.length) :=
          Fin.ext (show (j : ℕ) = done.length - 1 by omega)
        rw [hjeq]
    have hcount : done.countP (fun e => decide (e.ticks < T)) = done.length := by
      rw [List.countP_eq_length]
      intro y hy
      have := hmax y hy
      simp only [decide_eq_true_eq]
      omega
    rw [tickToSecondsList_eq, if_neg hT0, hcount,
      List.getD_eq_get _ _ (show done.length - 1 < done.length by omega), ← hlastget]

/-- Sortedness by ticks only depends on the ticks sequence. -/
theorem ticksSorted_iff_map (l : List TempoEvent) :
    TicksSorted l ↔ List.Pairwise (fun a b : ℕ => a ≤ b) (l.map (fun e => e.ticks)) := by
  unfold TicksSorted List.Sorted
  rw [List.pairwise_map]
  exact Iff.rfl

theorem map_ticks_of_map_pair {l₁ l₂ : List TempoEvent}
    (h : l₁.map (fun e => (e.ticks, e.bpm)) = l₂.map (fun e => (e.ticks, e.bpm))) :
    l₁.map (fun e => e.ticks) = l₂.map (fun e => e.ticks) := by
  have h2 := congrArg (List.map Prod.fst) h
  simpa [List.map_map, Function.comp] using h2

theorem ticksSorted_of_map_pair {l₁ l₂ : List TempoEvent}
    (h : l₁.map (fun e => (e.ticks, e.bpm)) = l₂.map (fun e => (e.ticks, e.bpm)))
    (hs : TicksSorted l₂) : TicksSorted l₁ := by
  rw [ticksSorted_iff_map] at hs ⊢
  rw [map_ticks_of_map_pair h]
  exact hs

theorem headD_append_left {l₁ : List TempoEvent} (l₂ : List TempoEvent) (h : l₁ ≠ []) :
    ((l₁ ++ l₂).headD dummyTempo) = l₁.headD dummyTempo := by
  cases l₁ with
  | nil => exact absurd rfl h
  | cons a tl => rfl

/-- Core specification of the re-timing loop: it keeps ticks and bpm values
in place and produces a list whose head time is 0 and whose times are
adjacent-step consistent, provided the whole list is sorted, starts at
tick 0, and the already-processed part is already consistent. -/
theorem retimeLoop_spec (ppq : ℕ) :
    ∀ (todo done : List TempoEvent),
      TicksSorted (done ++ todo) →
      ((done ++ todo).headD dummyTempo).ticks = 0 →
      (done ≠ [] → (done.headD dummyTempo).time = 0 ∧ TimesChain ppq done) →
      ∃ todo2 : List TempoEvent,
        retimeLoop ppq done todo = done ++ todo2 ∧
        todo2.map (fun e => (e.ticks, e.bpm)) = todo.map (fun e => (e.ticks, e.bpm)) ∧
        (done ++ todo2 ≠ [] →
          ((done ++ todo2).headD dummyTempo).time = 0 ∧ TimesChain ppq (done ++ todo2)) := by
  intro todo
  induction todo with
  | nil =>
    intro done hs h0 hd
    refine ⟨[], by simp [retimeLoop], rfl, ?_⟩
    intro hne
    simp only [List.append_nil] at hne ⊢
    exact hd hne
  | cons e rest ih =>
    intro done hs h0 hd
    have hrest_sorted : List.Pairwise tempoLE (e :: rest) :=
      (List.pairwise_append.mp hs).2.1
    have he_le_rest : ∀ y ∈ rest, e.ticks ≤ y.ticks := by
      intro y hy
      exact (List.pairwise_cons.mp hrest_sorted).1 y hy
    have hsuffix_ge : ∀ y ∈ e :: rest, ¬ y.ticks < e.ticks := by
      intro y hy
      rcases List.mem_cons.mp hy with rfl | hy2
      · omega
      · have := he_le_rest y hy2
        omega
    set t := tickToSecondsList ppq (done ++ e :: rest) e.ticks with htdef
    set e1 : TempoEvent := { e with time := t } with he1def
    -- the computed time makes the extended processed part consistent
    have hdone1 : (done ++ [e1] ≠ []) →
        ((done ++ [e1]).headD dummyTempo).time = 0 ∧ TimesChain ppq (done ++ [e1]) := by
      intro _
      by_cases hdne : done = []
      · subst hdne
        have he0 : e.ticks = 0 := by simpa using h0
        have ht0 : t = 0 := by
          rw [htdef, he0]
          simp [tickToSecondsList]
        constructor
        · simp [he1def, ht0]
        · simp only [List.nil_append]
          exact List.chain'_singleton e1
      · obtain ⟨hdt0, hdchain⟩ := hd hdne
        have hdsorted : TicksSorted done := (List.pairwise_append.mp hs).1
        have hdh0 : (done.headD dummyTempo).ticks = 0 := by
          rw [← headD_append_left (e :: rest) hdne]
          exact h0
        have hlast_le : (done.getLast hdne).ticks ≤ e.ticks := by
          have hcross := (List.pairwise_append.mp hs).2.2
          exact hcross (done.getLast hdne) (List.getLast_mem hdne) e (by simp)
        have hedge : timeStep ppq (done.getLast hdne) e1 := by
          show e1.time = (done.getLast hdne).time +
            ((e1.ticks : ℚ) - ((done.getLast hdne).ticks : ℚ)) /
              tempo_bpm_to_ticks_per_second (done.getLast hdne).bpm ppq
          have h1 : t = tickToSecondsList ppq done e.ticks := by
            rw [htdef]
            exact tts_append_right_irrel ppq done (e :: rest) e.ticks hdne hsuffix_ge
          have h2 := tts_last_step ppq done hdne hdsorted hdh0 hdt0 hdchain e.ticks hlast_le
          show t = _
          rw [h1, h2]
        constructor
        · rw [headD_append_left [e1] hdne]
          exact hdt0
        · rw [TimesChain, List.chain'_append]
          refine ⟨hdchain, List.chain'_singleton e1, ?_⟩
          intro x hx y hy
          rw [List.getLast?_eq_getLast_of_ne_nil hdne] at hx
          simp only [Option.mem_some_iff] at hx
          simp only [List.head?_cons, Option.mem_some_iff] at hy
          rw [← hx, ← hy]
          exact hedge
    -- apply the induction hypothesis with the extended processed part
    have hmap_eq : (done ++ [e1] ++ rest).map (fun x => (x.ticks, x.bpm)) =
        (done ++ e :: rest).map (fun x => (x.ticks, x.bpm)) := by
      simp [he1def]
    have hs2 : TicksSorted (done ++ [e1] ++ rest) :=
      ticksSorted_of_map_pair hmap_eq hs
    have h02 : ((done ++ [e1] ++ rest).headD dummyTempo).ticks = 0 := by
      by_cases hdne : done = []
      · subst hdne
        simpa [he1def] using h0
      · rw [List.append_assoc, headD_append_left _ hdne]
        rw [← headD_append_left (e :: rest) hdne]
        exact h0
    obtain ⟨rest2, hloop, hmap, hinv⟩ := ih (done ++ [e1]) hs2 h02 hdone1
    refine ⟨e1 :: rest2, ?_, ?_, ?_⟩
    · rw [retimeLoop, ← htdef, ← he1def, hloop]
      simp
    · simp only [List.map_cons]
      rw [hmap]
    · intro hne
      have hfin := hinv (by simp)
      simpa only [List.append_assoc, List.singleton_append] using hfin

theorem headD_ticks_of_map_pair {l₁ l₂ : List TempoEvent}
    (h : l₁.map (fun e => (e.ticks, e.bpm)) = l₂.map (fun e => (e.ticks, e.bpm))) :
    (l₁.headD dummyTempo).ticks = (l₂.headD dummyTempo).ticks := by
  cases l₁ <;> cases l₂ <;> simp_all

/-- The re-timing loop only rewrites `time` fields: the ticks/bpm sequence is
untouched. -/
theorem retimeLoop_map_pair (ppq : ℕ) : ∀ (todo done : List TempoEvent),
    (retimeLoop ppq done todo).map (fun e => (e.ticks, e.bpm)) =
      done.map (fun e => (e.ticks, e.bpm)) ++ todo.map (fun e => (e.ticks, e.bpm)) := by
  intro todo
  induction todo with
  | nil => intro done; simp [retimeLoop]
  | cons e rest ih =>
    intro done
    rw [retimeLoop, ih]
    simp

theorem retimeTempos_map_pair (ppq : ℕ) (m : List TempoEvent) :
    (retimeTempos ppq m).map (fun e => (e.ticks, e.bpm)) =
      (sortTempos m).map (fun e => (e.ticks, e.bpm)) := by
  rw [retimeTempos, retimeLoop_map_pair]
  simp

theorem retimeLoop_length (ppq : ℕ) : ∀ (todo done : List TempoEvent),
    (retimeLoop ppq done todo).length = done.length + todo.length := by
  intro todo
  induction todo with
  | nil => intro done; simp [retimeLoop]
  | cons e rest ih =>
    intro done
    rw [retimeLoop, ih]
    simp
    omega

theorem retimeTempos_length (ppq : ℕ) (m : List TempoEvent) :
    (retimeTempos ppq m).length = m.length := by
  rw [retimeTempos, retimeLoop_length]
  simp [sortTempos]

/-- Full specification of the cascade on any list containing a tick-0 event:
the result is non-empty, sorted, anchored at tick 0, with head time 0 and
adjacent-consistent `time` fields. -/
theorem retimeTempos_spec (ppq : ℕ) (m : List TempoEvent)
    (h0 : ∃ e ∈ m, e.ticks = 0) :
    retimeTempos ppq m ≠ [] ∧
    TicksSorted (retimeTempos ppq m) ∧
    ((retimeTempos ppq m).headD dummyTempo).ticks = 0 ∧
    ((retimeTempos ppq m).headD dummyTempo).time = 0 ∧
    TimesChain ppq (retimeTempos ppq m) := by
  obtain ⟨e0, he0mem, he0⟩ := h0
  have hsortmem : e0 ∈ sortTempos m :=
    ((List.perm_insertionSort tempoLE m).mem_iff).mpr he0mem
  have hsorted : TicksSorted (sortTempos m) := List.sorted_insertionSort tempoLE m
  have hne : sortTempos m ≠ [] := List.ne_nil_of_mem hsortmem
  have hhead0 : ((sortTempos m).headD dummyTempo).ticks = 0 := by
    cases hsl : sortTempos m with
    | nil => exact absurd hsl hne
    | cons a tl =>
      rw [hsl] at hsortmem hsorted
      rcases List.mem_cons.mp hsortmem with rfl | hmem
      · simpa using he0
      · have h1 : a.ticks ≤ e0.ticks := (List.pairwise_cons.mp hsorted).1 e0 hmem
        simp only [List.headD_cons]
        omega
  obtain ⟨todo2, hloop, hmap, hinv⟩ :=
    retimeLoop_spec ppq (sortTempos m) [] (by simpa using hsorted)
      (by simpa using hhead0) (by intro h; exact absurd rfl h)
  have hr : retimeTempos ppq m = todo2 := by
    rw [retimeTempos, hloop]
    simp
  have hrne : retimeTempos ppq m ≠ [] := by
    rw [hr]
    intro hx
    rw [hx] at hmap
    exact hne (List.map_eq_nil.mp hmap.symm)
  have hpair : (retimeTempos ppq m).map (fun e => (e.ticks, e.bpm)) =
      (sortTempos m).map (fun e => (e.ticks, e.bpm)) := retimeTempos_map_pair ppq m
  refine ⟨hrne, ticksSorted_of_map_pair hpair hsorted, ?_, ?_, ?_⟩
  · rw [headD_ticks_of_map_pair hpair]
    exact hhead0
  · have := hinv (by rw [List.nil_append]; rw [← hr]; exact hrne)
    rw [List.nil_append] at this
    rw [hr]
    exact this.1
  · have := hinv (by rw [List.nil_append]; rw [← hr]; exact hrne)
    rw [List.nil_append] at this
    rw [hr]
    exact this.2

/-- Any song whose tempo list contains a tick-0 event is, after the cascade,
in the fully re-timed state: times equal the integral and the cascade is
idempotent. -/
theorem retime_song_retimed (s : Song) (h0 : ∃ e ∈ s.tempos, e.ticks = 0) :
    TempoRetimed s.retiming_tempo_events := by
  obtain ⟨hne, hsorted, hh0, hht0, hchain⟩ := retimeTempos_spec s.resolution s.tempos h0
  constructor
  · show (retimeTempos s.resolution s.tempos).map (fun e => e.time) =
      integralTimes s.resolution (retimeTempos s.resolution s.tempos)
    exact (map_time_eq_integral_iff _ _).mpr (Or.inr ⟨hht0, hchain⟩)
  · have hfix := times_fixed_of_chain s.resolution hsorted hh0 hht0 hchain
    have hid := retimeTempos_id_of_fixed s.resolution _ hsorted hfix
    show Song.mk s.resolution (retimeTempos s.resolution (retimeTempos s.resolution s.tempos))
        s.time_signatures s.structures =
      Song.mk s.resolution (retimeTempos s.resolution s.tempos) s.time_signatures s.structures
    rw [hid]

/-- A song satisfying the full tempo invariants is already re-timed. -/
theorem retimed_of_inv (s : Song) (h : TempoInv s) : TempoRetimed s := by
  obtain ⟨hne, hstrict, hh0, hint, hres, hbpm⟩ := h
  have hsorted : TicksSorted s.tempos :=
    hstrict.imp (fun hab => Nat.le_of_lt hab)
  rcases (map_time_eq_integral_iff s.resolution s.tempos).mp hint with hnil | ⟨hht0, hchain⟩
  · exact absurd hnil hne
  refine ⟨hint, ?_⟩
  have hfix := times_fixed_of_chain s.resolution hsorted hh0 hht0 hchain
  have hid := retimeTempos_id_of_fixed s.resolution _ hsorted hfix
  show Song.mk s.resolution (retimeTempos s.resolution s.tempos) s.time_signatures s.structures = s
  rw [hid]

/-- The cascade keeps a tick-0 event in the list. -/
theorem zero_mem_retime (ppq : ℕ) (m : List TempoEvent)
    (h0 : ∃ e ∈ m, e.ticks = 0) : ∃ e ∈ retimeTempos ppq m, e.ticks = 0 := by
  obtain ⟨hne, _, hh0, _, _⟩ := retimeTempos_spec ppq m h0
  cases hr : retimeTempos ppq m with
  | nil => exact absurd hr hne
  | cons a tl =>
    rw [hr] at hh0
    exact ⟨a, List.mem_cons_self a tl, by simpa using hh0⟩

/-! ## Shapes of the tempo mutations -/

theorem insertIdx_perm (a : TempoEvent) :
    ∀ (n : ℕ) (l : List TempoEvent), n ≤ l.length →
      List.Perm (l.insertIdx n a) (a :: l) := by
  intro n
  induction n with
  | zero => intro l _; exact List.Perm.refl _
  | succ k ih =>
    intro l hl
    cases l with
    | nil => simp at hl
    | cons b tl =>
      rw [List.insertIdx_succ_cons]
      exact ((ih tl (by simpa using hl)).cons b).trans (List.Perm.swap a b tl)

/-- Both branches of `create_tempo_change` (append when no ceiling exists,
insert otherwise) are insertion at the count of strictly smaller ticks. -/
theorem create_tempo_change_eq (s : Song) (ticks : ℕ) (bpm : ℚ)
    (hres : 0 < s.resolution) (hne : s.tempos ≠ []) :
    s.create_tempo_change ticks bpm =
      Except.ok
        { s with
          tempos :=
            retimeTempos s.resolution
              (s.tempos.insertIdx
                (s.tempos.countP (fun e => decide (e.ticks < ticks)))
                ⟨ticks, bpm, s.tick_to_seconds ticks⟩) } := by
  have h1 : ¬ s.resolution ≤ 0 := by omega
  have h2 : ¬ (s.tempos.length = 0 ∧ ticks ≠ 0) := by
    intro hcon
    exact hne (List.length_eq_zero.mp hcon.1)
  by_cases hc : s.tempos.countP (fun x => decide (ticks ≤ x.ticks)) = 0
  · have hall : s.tempos.countP (fun e => decide (e.ticks < ticks)) = s.tempos.length := by
      rw [List.countP_eq_length]
      intro e he
      have hnotle : ¬ (ticks ≤ e.ticks) := by
        intro hcon
        have : 0 < s.tempos.countP (fun x => decide (ticks ≤ x.ticks)) :=
          List.countP_pos.mpr ⟨e, he, by simpa using hcon⟩
        omega
      simp only [decide_eq_true_eq]
      omega
    simp only [Song.create_tempo_change, greater_equal, h1, h2, hc, if_true, if_false,
      ite_true, ite_false]
    rw [if_pos (by norm_num : (-1 : ℤ) < 0), hall, List.insertIdx_length_self]
    rfl
  · have h3 : ¬ ((s.tempos.countP (fun x => decide (x.ticks < ticks)) : ℤ) < 0) := by
      omega
    simp only [Song.create_tempo_change, greater_equal, h1, h2, hc, if_true, if_false,
      ite_true, ite_false]
    rw [if_neg h3]
    simp only [Int.toNat_natCast]
    rfl

theorem zero_mem_eraseIdx_of_pos (l : List TempoEvent) (j : ℕ) (hj : j ≠ 0)
    (hne : l ≠ []) (h0 : (l.headD dummyTempo).ticks = 0) :
    ∃ e ∈ l.eraseIdx j, e.ticks = 0 := by
  cases l with
  | nil => exact absurd rfl hne
  | cons h tl =>
    cases j with
    | zero => exact absurd rfl hj
    | succ k =>
      refine ⟨h, ?_, by simpa using h0⟩
      rw [List.eraseIdx_cons_succ]
      exact List.mem_cons_self _ _

theorem zero_mem_set_of_pos (l : List TempoEvent) (j : ℕ) (v : TempoEvent) (hj : j ≠ 0)
    (hne : l ≠ []) (h0 : (l.headD dummyTempo).ticks = 0) :
    ∃ e ∈ l.set j v, e.ticks = 0 := by
  cases l with
  | nil => exact absurd rfl hne
  | cons h tl =>
    cases j with
    | zero => exact absurd rfl hj
    | succ k =>
      refine ⟨h, ?_, by simpa using h0⟩
      rw [List.set_cons_succ]
      exact List.mem_cons_self _ _

theorem zero_mem_insertIdx (l : List TempoEvent) (n : ℕ) (v : TempoEvent)
    (hn : n ≤ l.length) (h0 : ∃ e ∈ l, e.ticks = 0) :
    ∃ e ∈ l.insertIdx n v, e.ticks = 0 := by
  obtain ⟨e, hmem, he⟩ := h0
  exact ⟨e, ((insertIdx_perm v n l hn).mem_iff).mpr (List.mem_cons_of_mem v hmem), he⟩

theorem remove_tempo_change_at_ok (s : Song) (idx : ℕ) (s1 : Song)
    (hok : s.remove_tempo_change_at idx = .ok s1) :
    idx ≠ 0 ∧ 1 < s.tempos.length ∧ idx < s.tempos.length ∧
    s1 = { s with tempos := retimeTempos s.resolution (s.tempos.eraseIdx idx) } := by
  unfold Song.remove_tempo_change_at at hok
  by_cases h1 : s.tempos.length ≤ 1
  · rw [if_pos h1] at hok
    exact absurd hok (by simp)
  · rw [if_neg h1] at hok
    by_cases h2 : idx = 0
    · rw [if_pos h2] at hok
      exact absurd hok (by simp)
    · rw [if_neg h2] at hok
      by_cases h3 : s.tempos.length ≤ idx
      · rw [if_pos h3] at hok
        exact absurd hok (by simp)
      · rw [if_neg h3] at hok
        injection hok with h
        exact ⟨h2, by omega, by omega, h.symm⟩

theorem createFold_spec (l : List TempoEvent) : ∀ (s : Song), 0 < s.resolution →
    (∃ e ∈ s.tempos, e.ticks = 0) →
    ∃ s2, createFold l s = .ok s2 ∧ s2.resolution = s.resolution ∧
      (∃ e ∈ s2.tempos, e.ticks = 0) := by
  induction l with
  | nil => intro s hres h0; exact ⟨s, rfl, rfl, h0⟩
  | cons e rest ih =>
    intro s hres h0
    have hne : s.tempos ≠ [] := by
      obtain ⟨x, hx, _⟩ := h0
      exact List.ne_nil_of_mem hx
    have hcreate := create_tempo_change_eq s e.ticks e.bpm hres hne
    have hcnt : s.tempos.countP (fun x => decide (x.ticks < e.ticks)) ≤ s.tempos.length :=
      List.countP_le_length _
    have h0' : ∃ x ∈ retimeTempos s.resolution
        (s.tempos.insertIdx (s.tempos.countP (fun x => decide (x.ticks < e.ticks)))
          ⟨e.ticks, e.bpm, s.tick_to_seconds e.ticks⟩), x.ticks = 0 :=
      zero_mem_retime _ _ (zero_mem_insertIdx _ _ _ hcnt h0)
    obtain ⟨s2, hf, hr2, h02⟩ := ih
      ({ s with
        tempos :=
          retimeTempos s.resolution
            (s.tempos.insertIdx
              (s.tempos.countP (fun x => decide (x.ticks < e.ticks)))
              ⟨e.ticks, e.bpm, s.tick_to_seconds e.ticks⟩) }) hres h0'
    refine ⟨s2, ?_, hr2, h02⟩
    rw [createFold, hcreate]
    exact hf

/-- C2: after any single successful tempo mutation on a song satisfying the
tempo invariants (bpm arguments positive, per the data model), every `time`
field equals the piecewise-linear integral of the resulting list and
re-running `retiming_tempo_events` leaves the song unchanged. -/
theorem C2_tempo_mutations_retimed (s : Song) (hInv : TempoInv s) :
    (∀ (ticks : ℕ) (bpm : ℚ) (s' : Song), 0 < bpm →
      s.create_tempo_change ticks bpm = .ok s' → TempoRetimed s') ∧
    (∀ (i t : ℕ) (s' : Song), s.move_tempo i t = .ok s' → TempoRetimed s') ∧
    (∀ (i : ℕ) (s' : Song), s.remove_tempo_change_at i = .ok s' → TempoRetimed s') ∧
    (∀ (evs : List TempoEvent) (s' : Song), (∀ e ∈ evs, 0 < e.bpm) →
      s.overwrite_tempo_changes evs = .ok s' → TempoRetimed s') := by
  obtain ⟨hne, hstrict, hh0, hint, hres, hbpm⟩ := hInv
  have hInv' : TempoInv s := ⟨hne, hstrict, hh0, hint, hres, hbpm⟩
  have h0mem : ∃ e ∈ s.tempos, e.ticks = 0 := by
    cases hl : s.tempos with
    | nil => exact absurd hl hne
    | cons a tl =>
      rw [hl] at hh0
      exact ⟨a, List.mem_cons_self a tl, by simpa using hh0⟩
  refine ⟨?_, ?_, ?_, ?_⟩
  · -- create_tempo_change
    intro ticks bpm s' _ hok
    rw [create_tempo_change_eq s ticks bpm hres hne] at hok
    injection hok with h
    subst h
    exact retime_song_retimed
      ({ s with
        tempos := s.tempos.insertIdx
          (s.tempos.countP (fun e => decide (e.ticks < ticks)))
          ⟨ticks, bpm, s.tick_to_seconds ticks⟩ })
      (zero_mem_insertIdx _ _ _ (List.countP_le_length _) h0mem)
  · -- move_tempo
    intro i t s' hok
    simp only [Song.move_tempo] at hok
    by_cases hlen : i < s.tempos.length
    · rw [if_pos hlen] at hok
      by_cases hi0 : i = 0
      · rw [if_pos hi0] at hok
        injection hok with h
        subst h
        exact retimed_of_inv s hInv'
      · rw [if_neg hi0] at hok
        by_cases hprev : (s.tempos.getD (i - 1) dummyTempo).ticks = t
        · rw [if_pos hprev] at hok
          cases hrem : s.remove_tempo_change_at (i - 1) with
          | error e =>
            rw [hrem] at hok
            exact absurd hok (by simp)
          | ok s1 =>
            rw [hrem] at hok
            injection hok with h
            subst h
            obtain ⟨hj0, _, _, hs1⟩ := remove_tempo_change_at_ok s (i - 1) s1 hrem
            subst hs1
            exact retime_song_retimed
              ({ s with tempos := retimeTempos s.resolution (s.tempos.eraseIdx (i - 1)) })
              (zero_mem_retime _ _ (zero_mem_eraseIdx_of_pos _ _ hj0 hne hh0))
        · rw [if_neg hprev] at hok
          by_cases hnext : i < s.tempos.length - 1 ∧
              (s.tempos.getD (i + 1) dummyTempo).ticks = t
          · rw [if_pos hnext] at hok
            cases hrem : s.remove_tempo_change_at (i + 1) with
            | error e =>
              rw [hrem] at hok
              exact absurd hok (by simp)
            | ok s1 =>
              rw [hrem] at hok
              injection hok with h
              subst h
              obtain ⟨hj0, _, _, hs1⟩ := remove_tempo_change_at_ok s (i + 1) s1 hrem
              subst hs1
              exact retime_song_retimed
                ({ s with tempos := retimeTempos s.resolution (s.tempos.eraseIdx (i + 1)) })
                (zero_mem_retime _ _ (zero_mem_eraseIdx_of_pos _ _ hj0 hne hh0))
          · rw [if_neg hnext] at hok
            injection hok with h
            subst h
            exact retime_song_retimed
              ({ s with
                tempos := s.tempos.set i
                  { s.tempos.getD i dummyTempo with ticks := t } })
              (zero_mem_set_of_pos _ _ _ hi0 hne hh0)
    · rw [if_neg hlen] at hok
      injection hok with h
      subst h
      exact retimed_of_inv s hInv'
  · -- remove_tempo_change_at
    intro i s' hok
    obtain ⟨hj0, _, _, hs1⟩ := remove_tempo_change_at_ok s i s' hok
    subst hs1
    exact retime_song_retimed
      ({ s with tempos := s.tempos.eraseIdx i })
      (zero_mem_eraseIdx_of_pos _ _ hj0 hne hh0)
  · -- overwrite_tempo_changes
    intro evs s' _ hok
    simp only [Song.overwrite_tempo_changes] at hok
    by_cases hevs : evs = []
    · rw [if_pos hevs] at hok
      exact absurd hok (by simp)
    · rw [if_neg hevs] at hok
      by_cases hfirst : 0 < ((sortTempos evs).headD dummyTempo).ticks
      · rw [if_pos hfirst] at hok
        exact absurd hok (by simp)
      · rw [if_neg hfirst] at hok
        obtain ⟨s2, hf, hr2, h02⟩ := createFold_spec ((sortTempos evs).drop 1)
          ({ s with tempos := [⟨0, ((sortTempos evs).headD dummyTempo).bpm, 0⟩] })
          hres ⟨⟨0, ((sortTempos evs).headD dummyTempo).bpm, 0⟩, List.mem_singleton_self _, rfl⟩
        rw [hf] at hok
        injection hok with h
        subst h
        exact retime_song_retimed s2 h02

deriving instance DecidableEq for Except

theorem C2_tempo_mutations_retimed_witness :
    TempoRetimed
      { resolution := 480, tempos := [⟨0, 120, 0⟩, ⟨480, 150, 1/2⟩],
        time_signatures := [], structures := [] } := by
  refine (C2_tempo_mutations_retimed
      { resolution := 480, tempos := [⟨0, 120, 0⟩],
        time_signatures := [], structures := [] }
      (by decide)).1 480 150 _ (by norm_num) ?_
  simp [Song.create_tempo_change, greater_equal, Song.tick_to_seconds, tickToSecondsList,
    lower_than, Song.retiming_tempo_events, retimeTempos, sortTempos, retimeLoop,
    List.insertionSort, List.orderedInsert, tempoLE, tempo_bpm_to_ticks_per_second,
    dummyTempo]
  norm_num

/-! ## C3: monotonicity of tick_to_seconds -/

theorem tts_step_le (ppq : ℕ) (l : List TempoEvent) (hppq : 0 < ppq)
    (hne : l ≠ []) (hstrict : TicksStrictSorted l)
    (hh0 : (l.headD dummyTempo).ticks = 0)
    (hint : l.map (fun e => e.time) = integralTimes ppq l)
    (hbpm : ∀ e ∈ l, 0 < e.bpm) (t : ℕ) :
    tickToSecondsList ppq l t ≤ tickToSecondsList ppq l (t + 1) := by
  have hsorted : TicksSorted l := hstrict.imp (fun hab => Nat.le_of_lt hab)
  rcases (map_time_eq_integral_iff ppq l).mp hint with hnil | ⟨hht0, hchain⟩
  · exact absurd hnil hne
  have hfix := times_fixed_of_chain ppq hsorted hh0 hht0 hchain
  have hlenpos : 0 < l.length := List.length_pos.mpr hne
  have hheadmem : l.headD dummyTempo ∈ l := by
    cases l with
    | nil => exact absurd rfl hne
    | cons a tl => exact List.mem_cons_self a tl
  have htps : ∀ e ∈ l, 0 < tempo_bpm_to_ticks_per_second e.bpm ppq := by
    intro e he
    have h1 : (0 : ℚ) < e.bpm * (ppq : ℚ) :=
      mul_pos (hbpm e he) (by exact_mod_cast hppq)
    exact div_pos h1 (by norm_num)
  have hcount_pos : ∀ T : ℕ, 0 < T → 1 ≤ l.countP (fun e => decide (e.ticks < T)) := by
    intro T hT
    exact List.countP_pos.mpr ⟨l.headD dummyTempo, hheadmem, by
      simp only [decide_eq_true_eq]
      omega⟩
  by_cases ht : t = 0
  · subst ht
    have h1 : tickToSecondsList ppq l 0 = 0 := by simp [tickToSecondsList]
    rw [h1, tickToSecondsList_eq, if_neg (by omega : ¬ (0 + 1 = 0))]
    have hc1 : 1 ≤ l.countP (fun e => decide (e.ticks < 0 + 1)) := hcount_pos 1 (by omega)
    have hcl : l.countP (fun e => decide (e.ticks < 0 + 1)) - 1 < l.length := by
      have : l.countP (fun e => decide (e.ticks < 0 + 1)) ≤ l.length :=
        List.countP_le_length _
      omega
    rw [List.getD_eq_get _ _ hcl]
    have hb0 : (l.get ⟨l.countP (fun e => decide (e.ticks < 0 + 1)) - 1, hcl⟩).ticks = 0 := by
      have := (sorted_get_lt_count_iff hsorted (0 + 1) _ hcl).mpr (by omega)
      omega
    have hbt : (l.get ⟨l.countP (fun e => decide (e.ticks < 0 + 1)) - 1, hcl⟩).time = 0 := by
      have h2 := hfix _ hcl
      rw [hb0] at h2
      simpa [tickToSecondsList] using h2
    rw [hbt, hb0]
    have : (0 : ℚ) ≤ ((0 + 1 : ℕ) : ℚ) - ((0 : ℕ) : ℚ) := by norm_num
    have hdiv : (0 : ℚ) ≤ (((0 + 1 : ℕ) : ℚ) - ((0 : ℕ) : ℚ)) /
        tempo_bpm_to_ticks_per_second
          (l.get ⟨l.countP (fun e => decide (e.ticks < 0 + 1)) - 1, hcl⟩).bpm ppq :=
      div_nonneg this (le_of_lt (htps _ (l.get_mem _ _)))
    simpa using hdiv
  · have hc1 : 1 ≤ l.countP (fun e => decide (e.ticks < t)) := hcount_pos t (by omega)
    have hc1' : 1 ≤ l.countP (fun e => decide (e.ticks < t + 1)) := hcount_pos (t + 1) (by omega)
    have hcle : l.countP (fun e => decide (e.ticks < t)) ≤ l.length :=
      List.countP_le_length _
    have hcle' : l.countP (fun e => decide (e.ticks < t + 1)) ≤ l.length :=
      List.countP_le_length _
    have hmono : l.countP (fun e => decide (e.ticks < t)) ≤
        l.countP (fun e => decide (e.ticks < t + 1)) := by
      by_contra hcon
      have hlt : l.countP (fun e => decide (e.ticks < t + 1)) <
          l.countP (fun e => decide (e.ticks < t)) := by omega
      have hidx : l.countP (fun e => decide (e.ticks < t + 1)) < l.length := by omega
      have h1 := (sorted_get_lt_count_iff hsorted t _ hidx).mpr hlt
      have h2 := (sorted_get_lt_count_iff hsorted (t + 1) _ hidx).mp (by omega)
      omega
    have hupper : l.countP (fun e => decide (e.ticks < t + 1)) ≤
        l.countP (fun e => decide (e.ticks < t)) + 1 := by
      by_contra hcon
      have hidx1 : l.countP (fun e => decide (e.ticks < t)) < l.length := by omega
      have hidx2 : l.countP (fun e => decide (e.ticks < t)) + 1 < l.length := by omega
      have hlt2 : (l.get ⟨l.countP (fun e => decide (e.ticks < t)) + 1, hidx2⟩).ticks < t + 1 :=
        (sorted_get_lt_count_iff hsorted (t + 1) _ hidx2).mpr (by omega)
      have hge1 : ¬ (l.get ⟨l.countP (fun e => decide (e.ticks < t)), hidx1⟩).ticks < t := by
        intro hx
        have := (sorted_get_lt_count_iff hsorted t _ hidx1).mp hx
        omega
      have hge2 : ¬ (l.get ⟨l.countP (fun e => decide (e.ticks < t)) + 1, hidx2⟩).ticks < t := by
        intro hx
        have := (sorted_get_lt_count_iff hsorted t _ hidx2).mp hx
        omega
      have hstrictpair : (l.get ⟨l.countP (fun e => decide (e.ticks < t)), hidx1⟩).ticks <
          (l.get ⟨l.countP (fun e => decide (e.ticks < t)) + 1, hidx2⟩).ticks :=
        List.pairwise_iff_get.mp hstrict _ _ (Fin.mk_lt_mk.mpr (by omega))
      omega
    rcases Nat.eq_or_lt_of_le hmono with heq | hlt
    · -- same base segment
      rw [tickToSecondsList_eq ppq l t, tickToSecondsList_eq ppq l (t + 1), if_neg ht,
        if_neg (by omega : ¬ (t + 1 = 0)), ← heq]
      have hcl : l.countP (fun e => decide (e.ticks < t)) - 1 < l.length := by omega
      rw [List.getD_eq_get _ _ hcl]
      refine add_le_add_left ?_ _
      rw [div_le_div_right (htps _ (l.get_mem _ _))]
      have hcast : ((t + 1 : ℕ) : ℚ) = ((t : ℕ) : ℚ) + 1 := by push_cast; ring
      rw [hcast]
      linarith
    · -- the event at tick t becomes the new base
      have hceq : l.countP (fun e => decide (e.ticks < t + 1)) =
          l.countP (fun e => decide (e.ticks < t)) + 1 := by omega
      have hidxc : l.countP (fun e => decide (e.ticks < t)) < l.length := by omega
      have hbt : (l.get ⟨l.countP (fun e => decide (e.ticks < t)), hidxc⟩).ticks = t := by
        have h1 := (sorted_get_lt_count_iff hsorted (t + 1) _ hidxc).mpr (by omega)
        have h2 : ¬ (l.get ⟨l.countP (fun e => decide (e.ticks < t)), hidxc⟩).ticks < t := by
          intro hx
          have := (sorted_get_lt_count_iff hsorted t _ hidxc).mp hx
          omega
        omega
      have hbtime : (l.get ⟨l.countP (fun e => decide (e.ticks < t)), hidxc⟩).time =
          tickToSecondsList ppq l t := by
        have h3 := hfix _ hidxc
        rw [hbt] at h3
        exact h3
      have hft1 : tickToSecondsList ppq l (t + 1) =
          (l.get ⟨l.countP (fun e => decide (e.ticks < t)), hidxc⟩).time +
            (((t + 1 : ℕ) : ℚ) - ((t : ℕ) : ℚ)) /
              tempo_bpm_to_ticks_per_second
                (l.get ⟨l.countP (fun e => decide (e.ticks < t)), hidxc⟩).bpm ppq := by
        rw [tickToSecondsList_eq ppq l (t + 1), if_neg (by omega : ¬ (t + 1 = 0)), hceq]
        have hsub1 : l.countP (fun e => decide (e.ticks < t)) + 1 - 1 =
            l.countP (fun e => decide (e.ticks < t)) := by omega
        rw [hsub1, List.getD_eq_get _ _ hidxc, hbt]
      rw [hft1, hbtime]
      have hcast : ((t + 1 : ℕ) : ℚ) - ((t : ℕ) : ℚ) = 1 := by push_cast; ring
      rw [hcast]
      have hdivpos : (0 : ℚ) ≤ 1 / tempo_bpm_to_ticks_per_second
          (l.get ⟨l.countP (fun e => decide (e.ticks < t)), hidxc⟩).bpm ppq :=
        le_of_lt (div_pos (by norm_num) (htps _ (l.get_mem _ _)))
      linarith

/-- C3: on a song satisfying the tempo invariants, `tick_to_seconds` maps 0
to 0 and is monotonically non-decreasing in the tick. -/
theorem C3_tick_to_seconds_monotone (s : Song) (hInv : TempoInv s) :
    s.tick_to_seconds 0 = 0 ∧
    ∀ t1 t2 : ℕ, t1 ≤ t2 → s.tick_to_seconds t1 ≤ s.tick_to_seconds t2 := by
  obtain ⟨hne, hstrict, hh0, hint, hres, hbpm⟩ := hInv
  refine ⟨by simp [Song.tick_to_seconds, tickToSecondsList], ?_⟩
  have hstep : ∀ t : ℕ, tickToSecondsList s.resolution s.tempos t ≤
      tickToSecondsList s.resolution s.tempos (t + 1) :=
    tts_step_le s.resolution s.tempos hres hne hstrict hh0 hint hbpm
  have hmono : Monotone (fun t => tickToSecondsList s.resolution s.tempos t) :=
    monotone_nat_of_le_succ hstep
  intro t1 t2 h12
  exact hmono h12

/-- A two-segment song used as a concrete instance: 120 bpm from tick 0,
60 bpm from tick 960, resolution 480. -/
def songC3 : Song := ⟨480, [⟨0, 120, 0⟩, ⟨960, 60, 1⟩], [], []⟩

theorem songC3_inv : TempoInv songC3 := by
  refine ⟨by simp [songC3], by decide, by decide, ?_, by simp [songC3], by decide⟩
  show List.map (fun e => e.time) songC3.tempos = integralTimes 480 songC3.tempos
  simp [songC3, integralTimes, integralFrom, tempo_bpm_to_ticks_per_second]
  norm_num

theorem C3_tick_to_seconds_monotone_witness :
    songC3.tick_to_seconds 0 = 0 ∧
    songC3.tick_to_seconds 100 ≤ songC3.tick_to_seconds 1500 := by
  have h := C3_tick_to_seconds_monotone songC3 songC3_inv
  exact ⟨h.1, h.2 100 1500 (by omega)⟩

/-! ## Concrete songs used by the claim instances -/

/-- A one-tempo song: 120 bpm at tick 0, resolution 480 (the default song's
tempo map). -/
def songOne : Song := ⟨480, [⟨0, 120, 0⟩], [], []⟩

/-! ## C10: structure lookup on an empty list -/

/-- C10: `get_structure_at_tick` is total: it returns `none` exactly on the
empty structure list, and some marker otherwise. -/
theorem C10_get_structure_at_tick_total (s : Song) (tick : ℕ) :
    (s.structures = [] → s.get_structure_at_tick tick = none) ∧
    (s.structures ≠ [] → ∃ m, s.get_structure_at_tick tick = some m) := by
  constructor
  · intro h
    simp [Song.get_structure_at_tick, lower_equal, h]
  · intro h
    have hlen : 0 < s.structures.length := List.length_pos.mpr h
    have hc : s.structures.countP (fun m => decide (m.tick ≤ tick)) ≤ s.structures.length :=
      List.countP_le_length _
    simp only [Song.get_structure_at_tick, lower_equal]
    split_ifs with h1 h2 h3 h4 h5 h6 <;>
      first
      | exact ⟨_, rfl⟩
      | (exfalso; first | omega | assumption)

theorem C10_get_structure_at_tick_total_witness :
    (songOne.get_structure_at_tick 7 = none) ∧
    (∃ m, ({ songOne with structures := [⟨0, 1, none⟩] } : Song).get_structure_at_tick 7
      = some m) :=
  ⟨(C10_get_structure_at_tick_total songOne 7).1 rfl,
   (C10_get_structure_at_tick_total { songOne with structures := [⟨0, 1, none⟩] } 7).2
     (by simp)⟩

/-! ## C4: concrete tick_to_seconds values -/

/-- The song of the C4 example after inserting `(ticks=960, bpm=60)`. -/
theorem C4_counterexample :
    songOne.tick_to_seconds 480 = 1/2 ∧ (1/2 : ℚ) ≠ 1 ∧
    songOne.create_tempo_change 960 60 = .ok songC3 ∧
    songC3.tick_to_seconds 1440 = 2 ∧ (2 : ℚ) ≠ 9 := by
  refine ⟨?_, by norm_num, ?_, ?_, by norm_num⟩
  · simp [Song.tick_to_seconds, tickToSecondsList, lower_than, songOne, dummyTempo,
      tempo_bpm_to_ticks_per_second]
    norm_num
  · simp [Song.create_tempo_change, greater_equal, Song.tick_to_seconds, tickToSecondsList,
      lower_than, Song.retiming_tempo_events, retimeTempos, sortTempos, retimeLoop,
      List.insertionSort, List.orderedInsert, tempoLE, tempo_bpm_to_ticks_per_second,
      dummyTempo, songOne, songC3]
    norm_num
  · simp [Song.tick_to_seconds, tickToSecondsList, lower_than, songC3, dummyTempo,
      tempo_bpm_to_ticks_per_second]
    norm_num

/-- C4 amended: with resolution 480 and tempo (0,120), `tick_to_seconds 480`
is 0.5 seconds (not 1.0); after inserting (960, 60 bpm), `tick_to_seconds`
gives 2.0 at tick 1440 (not 9.0) and 3.0 at tick 1920. -/
theorem C4_amended :
    songOne.tick_to_seconds 480 = 1/2 ∧
    songOne.create_tempo_change 960 60 = .ok songC3 ∧
    songC3.tick_to_seconds 1440 = 2 ∧
    songC3.tick_to_seconds 1920 = 3 := by
  refine ⟨?_, ?_, ?_, ?_⟩
  · simp [Song.tick_to_seconds, tickToSecondsList, lower_than, songOne, dummyTempo,
      tempo_bpm_to_ticks_per_second]
    norm_num
  · simp [Song.create_tempo_change, greater_equal, Song.tick_to_seconds, tickToSecondsList,
      lower_than, Song.retiming_tempo_events, retimeTempos, sortTempos, retimeLoop,
      List.insertionSort, List.orderedInsert, tempoLE, tempo_bpm_to_ticks_per_second,
      dummyTempo, songOne, songC3]
    norm_num
  · simp [Song.tick_to_seconds, tickToSecondsList, lower_than, songC3, dummyTempo,
      tempo_bpm_to_ticks_per_second]
    norm_num
  · simp [Song.tick_to_seconds, tickToSecondsList, lower_than, songC3, dummyTempo,
      tempo_bpm_to_ticks_per_second]
    norm_num

/-! ## C1: create_tempo_change at an existing tick -/

/-- C1 counterexample: on the invariant-satisfying song `songOne` (one event
at tick 0), creating a tempo change at the existing tick 0 inserts a second
event at tick 0 instead of replacing the old one: the result has two events
with equal ticks, so the list is no longer strictly sorted. -/
theorem C1_counterexample :
    songOne.create_tempo_change 0 100 =
      .ok ⟨480, [⟨0, 100, 0⟩, ⟨0, 120, 0⟩], [], []⟩ ∧
    ¬ TicksStrictSorted [(⟨0, 100, 0⟩ : TempoEvent), ⟨0, 120, 0⟩] := by
  constructor
  · decide
  · decide

/-- On a strictly sorted list, a tick that occurs occurs exactly once. -/
theorem countP_ticks_eq_one_of_strict (t : ℕ) :
    ∀ (l : List TempoEvent), TicksStrictSorted l → (∃ e ∈ l, e.ticks = t) →
      l.countP (fun e => decide (e.ticks = t)) = 1 := by
  intro l
  induction l with
  | nil => intro _ hmem; simp at hmem
  | cons a tl ih =>
    intro hs hmem
    have hpair := List.pairwise_cons.mp hs
    rw [List.countP_cons]
    by_cases hat : a.ticks = t
    · have htl0 : tl.countP (fun e => decide (e.ticks = t)) = 0 := by
        refine List.countP_eq_zero.mpr ?_
        intro e he
        have := hpair.1 e he
        simp only [decide_eq_true_eq]
        omega
      simp [hat, htl0]
    · have hmem' : ∃ e ∈ tl, e.ticks = t := by
        rcases hmem with ⟨e, he, het⟩
        rcases List.mem_cons.mp he with rfl | htl
        · exact absurd het hat
        · exact ⟨e, htl, het⟩
      rw [ih hpair.2 hmem']
      simp [hat]

/-- C1 amended: creating a tempo change at a tick `t` that an event already
occupies succeeds and inserts the new event next to the old one.  Both
survive: the length grows by one, the list stays (weakly) sorted by ticks,
and exactly two events now sit at tick `t`. -/
theorem C1_amended_create_at_existing_tick (s : Song) (hres : 0 < s.resolution)
    (hne : s.tempos ≠ []) (hstrict : TicksStrictSorted s.tempos)
    (hh0 : (s.tempos.headD dummyTempo).ticks = 0)
    (t : ℕ) (bpm : ℚ) (hmem : ∃ e ∈ s.tempos, e.ticks = t) :
    ∃ s', s.create_tempo_change t bpm = .ok s' ∧
      s'.tempos.length = s.tempos.length + 1 ∧
      TicksSorted s'.tempos ∧
      s'.tempos.countP (fun e => decide (e.ticks = t)) = 2 := by
  have h0mem : ∃ e ∈ s.tempos, e.ticks = 0 := by
    cases hl : s.tempos with
    | nil => exact absurd hl hne
    | cons a tl =>
      rw [hl] at hh0
      exact ⟨a, List.mem_cons_self a tl, by simpa using hh0⟩
  have hcle : s.tempos.countP (fun e => decide (e.ticks < t)) ≤ s.tempos.length :=
    List.countP_le_length _
  refine ⟨_, create_tempo_change_eq s t bpm hres hne, ?_, ?_, ?_⟩
  · show (retimeTempos s.resolution _).length = _
    rw [retimeTempos_length, List.length_insertIdx _ _ hcle]
  · obtain ⟨_, hsorted, _, _, _⟩ :=
      retimeTempos_spec s.resolution
        (s.tempos.insertIdx (s.tempos.countP (fun e => decide (e.ticks < t)))
          ⟨t, bpm, s.tick_to_seconds t⟩)
        (zero_mem_insertIdx _ _ _ hcle h0mem)
    exact hsorted
  · show (retimeTempos s.resolution _).countP (fun e => decide (e.ticks = t)) = 2
    have hpairmap := retimeTempos_map_pair s.resolution
      (s.tempos.insertIdx (s.tempos.countP (fun e => decide (e.ticks < t)))
        ⟨t, bpm, s.tick_to_seconds t⟩)
    have hcount_map : ∀ m : List TempoEvent,
        (m.map (fun e => (e.ticks, e.bpm))).countP (fun pr => decide (pr.1 = t)) =
          m.countP (fun e => decide (e.ticks = t)) := by
      intro m
      rw [List.countP_map]
      rfl
    have h1 := hcount_map (retimeTempos s.resolution
      (s.tempos.insertIdx (s.tempos.countP (fun e => decide (e.ticks < t)))
        ⟨t, bpm, s.tick_to_seconds t⟩))
    rw [hpairmap] at h1
    rw [← h1, hcount_map]
    have hperm1 : List.Perm
        (sortTempos (s.tempos.insertIdx (s.tempos.countP (fun e => decide (e.ticks < t)))
          ⟨t, bpm, s.tick_to_seconds t⟩))
        (s.tempos.insertIdx (s.tempos.countP (fun e => decide (e.ticks < t)))
          ⟨t, bpm, s.tick_to_seconds t⟩) :=
      List.perm_insertionSort tempoLE _
    have hperm2 := (hperm1.trans (insertIdx_perm _ _ _ hcle)).countP_eq
      (fun e => decide (e.ticks = t))
    rw [hperm2, List.countP_cons]
    rw [countP_ticks_eq_one_of_strict t s.tempos hstrict hmem]
    simp

theorem C1_amended_create_at_existing_tick_witness :
    ∃ s', songOne.create_tempo_change 0 100 = .ok s' ∧
      s'.tempos.length = songOne.tempos.length + 1 ∧
      TicksSorted s'.tempos ∧
      s'.tempos.countP (fun e => decide (e.ticks = 0)) = 2 :=
  C1_amended_create_at_existing_tick songOne (by simp [songOne]) (by simp [songOne])
    (by decide) (by decide) 0 100 ⟨⟨0, 120, 0⟩, by decide, rfl⟩

/-! ## C5: overwrite_tempo_changes rejection behaviour -/

/-- C5: with a positive resolution (data-model invariant),
`overwrite_tempo_changes` fails exactly when the input is empty or the
earliest event after sorting starts past tick 0, and on failure the tempo
list is untouched. -/
theorem C5_overwrite_rejection (s : Song) (hres : 0 < s.resolution)
    (evs : List TempoEvent) :
    (∀ err s1, s.overwrite_tempo_changes evs = .error (err, s1) → s1.tempos = s.tempos) ∧
    ((∃ e, s.overwrite_tempo_changes evs = .error e) ↔
      evs = [] ∨ 0 < ((sortTempos evs).headD dummyTempo).ticks) := by
  by_cases hevs : evs = []
  · subst hevs
    constructor
    · intro err s1 herr
      simp only [Song.overwrite_tempo_changes, if_pos rfl] at herr
      injection herr with h
      injection h with h1 h2
      rw [← h2]
    · refine ⟨fun _ => Or.inl rfl, fun _ => ?_⟩
      exact ⟨("Cannot clear all the tempo events.", s),
        by simp [Song.overwrite_tempo_changes]⟩
  · by_cases hfirst : 0 < ((sortTempos evs).headD dummyTempo).ticks
    · constructor
      · intro err s1 herr
        simp only [Song.overwrite_tempo_changes] at herr
        rw [if_neg hevs, if_pos hfirst] at herr
        injection herr with h
        injection h with h1 h2
        rw [← h2]
      · refine ⟨fun _ => Or.inr hfirst, fun _ => ?_⟩
        refine ⟨("The first tempo event needs to start from tick 0", s), ?_⟩
        simp only [Song.overwrite_tempo_changes]
        rw [if_neg hevs, if_pos hfirst]
    · obtain ⟨s2, hf, _, _⟩ := createFold_spec ((sortTempos evs).drop 1)
        ({ s with tempos := [⟨0, ((sortTempos evs).headD dummyTempo).bpm, 0⟩] })
        hres ⟨⟨0, ((sortTempos evs).headD dummyTempo).bpm, 0⟩, List.mem_singleton_self _, rfl⟩
      have hov : s.overwrite_tempo_changes evs = .ok s2.retiming_tempo_events := by
        simp only [Song.overwrite_tempo_changes]
        rw [if_neg hevs, if_neg hfirst, hf]
      constructor
      · intro err s1 herr
        rw [hov] at herr
        exact absurd herr (by simp)
      · constructor
        · rintro ⟨e, he⟩
          rw [hov] at he
          exact absurd he (by simp)
        · rintro (h | h)
          · exact absurd h hevs
          · exact absurd h hfirst

theorem C5_overwrite_rejection_witness :
    ((∃ e, songOne.overwrite_tempo_changes [] = .error e) ∧
      (∀ err s1, songOne.overwrite_tempo_changes [⟨5, 100, 0⟩] = .error (err, s1) →
        s1.tempos = songOne.tempos) ∧
      (∃ e, songOne.overwrite_tempo_changes [⟨5, 100, 0⟩] = .error e)) :=
  ⟨(C5_overwrite_rejection songOne (by simp [songOne]) []).2.mpr (Or.inl rfl),
   (C5_overwrite_rejection songOne (by simp [songOne]) [⟨5, 100, 0⟩]).1,
   (C5_overwrite_rejection songOne (by simp [songOne]) [⟨5, 100, 0⟩]).2.mpr
     (Or.inr (by decide))⟩

/-! ## C6: move_tempo collision behaviour -/

/-- A three-event song with consistent times: 120 bpm at 0, 110 bpm at 100,
100 bpm at 200, resolution 480. -/
def songC6 : Song := ⟨480, [⟨0, 120, 0⟩, ⟨100, 110, 5/48⟩, ⟨200, 100, 115/528⟩], [], []⟩

/-- C6 failing input, evaluated: moving event 1 (tick 100) onto the next
event's tick 200 deletes the neighbour at 200 but leaves the moved event at
tick 100 — the `set_ticks` write lands on a wrapper detached by the
re-timing rebuild, so no event ends up at the destination tick.  Moving
event 1 onto the previous (anchor) event's tick 0 raises instead of merging,
leaving the song unchanged. -/
theorem C6_move_tempo_eval :
    songC6.move_tempo 1 200 = .ok ⟨480, [⟨0, 120, 0⟩, ⟨100, 110, 5/48⟩], [], []⟩ ∧
    (∀ e ∈ ([⟨0, 120, 0⟩, ⟨100, 110, 5/48⟩] : List TempoEvent), e.ticks ≠ 200) ∧
    songC6.move_tempo 1 0 = .error ("Cannot remove the first tempo.", songC6) := by
  refine ⟨?_, by decide, ?_⟩
  · simp [Song.move_tempo, Song.remove_tempo_change_at, Song.retiming_tempo_events,
      retimeTempos, sortTempos, retimeLoop, List.insertionSort, List.orderedInsert,
      tempoLE, tickToSecondsList, lower_than, tempo_bpm_to_ticks_per_second,
      dummyTempo, songC6]
    norm_num
  · simp [Song.move_tempo, Song.remove_tempo_change_at, songC6, dummyTempo]

/-! ## C7: update_structure_at_tick -/

def songS7 : Song := ⟨480, [⟨0, 120, 0⟩], [], [⟨0, 1, none⟩, ⟨50, 2, none⟩]⟩

/-- C7 counterexample: with markers at ticks 0 and 50 and no marker at tick
100, `update_structure_at_tick 100` does not create a marker at tick 100; it
changes the type of the floor marker at tick 50 in place. -/
theorem C7_counterexample :
    (songS7.update_structure_at_tick 100 3).structures = [⟨0, 1, none⟩, ⟨50, 3, none⟩] ∧
    ¬ ∃ m ∈ (songS7.update_structure_at_tick 100 3).structures, m.tick = 100 := by
  constructor
  · decide
  · decide

/-- The non-empty case of the floor lookup, in index form. -/
theorem get_structure_at_tick_eq_some (s : Song) (tick : ℕ) (h : s.structures ≠ []) :
    s.get_structure_at_tick tick =
      some (s.structures.getD (structureFloorIdx s tick) dummyMarker) := by
  have hlen : 0 < s.structures.length := List.length_pos.mpr h
  have hc : s.structures.countP (fun m => decide (m.tick ≤ tick)) ≤ s.structures.length :=
    List.countP_le_length _
  simp only [Song.get_structure_at_tick, lower_equal, structureFloorIdx]
  by_cases hc0 : s.structures.countP (fun m => decide (m.tick ≤ tick)) = 0
  · rw [hc0]
    norm_num
    rw [if_neg h]
    norm_num
  · have h1 : ¬ ((s.structures.countP (fun m => decide (m.tick ≤ tick)) : ℤ) - 1 < 0) := by
      omega
    have h2 : ¬ ((s.structures.length : ℤ) ≤
        (s.structures.countP (fun m => decide (m.tick ≤ tick)) : ℤ) - 1) := by omega
    have h3 : ¬ ((s.structures.countP (fun m => decide (m.tick ≤ tick)) : ℤ) - 1 = -1) := by
      omega
    rw [if_neg h1, if_neg h2, if_neg h3, if_neg hc0]
    have h4 : ((s.structures.countP (fun m => decide (m.tick ≤ tick)) : ℤ) - 1).toNat =
        s.structures.countP (fun m => decide (m.tick ≤ tick)) - 1 := by omega
    rw [h4]

/-- On a (weakly) tick-sorted marker list the markers with tick `≤ T` form a
prefix. -/
theorem marker_sorted_get_le_count_iff {l : List StructureMarker}
    (hs : List.Sorted markerLE l) (T : ℕ) :
    ∀ (i : ℕ) (h : i < l.length),
      ((l.get ⟨i, h⟩).tick ≤ T ↔ i < l.countP (fun m => decide (m.tick ≤ T))) := by
  induction l with
  | nil => intro i h; exact absurd h (by simp)
  | cons a tl ih =>
    have hpair := List.pairwise_cons.mp hs
    have ha : ∀ y ∈ tl, a.tick ≤ y.tick := hpair.1
    have ihtl := ih hpair.2
    intro i h
    have hcount : (a :: tl).countP (fun m => decide (m.tick ≤ T)) =
        tl.countP (fun m => decide (m.tick ≤ T)) + (if a.tick ≤ T then 1 else 0) := by
      rw [List.countP_cons]
      by_cases hx : a.tick ≤ T <;> simp [hx]
    rw [hcount]
    by_cases haT : a.tick ≤ T
    · rw [if_pos haT]
      cases i with
      | zero =>
        constructor
        · intro _; omega
        · intro _; exact haT
      | succ n =>
        have hn : n < tl.length := by simpa using h
        rw [show ((a :: tl).get ⟨n + 1, h⟩) = tl.get ⟨n, hn⟩ from rfl, ihtl n hn]
        omega
    · rw [if_neg haT, Nat.add_zero]
      have htl0 : tl.countP (fun m => decide (m.tick ≤ T)) = 0 := by
        refine List.countP_eq_zero.mpr ?_
        intro m hm
        have := ha m hm
        simp only [decide_eq_true_eq]
        omega
      rw [htl0]
      cases i with
      | zero =>
        constructor
        · intro hx; exact absurd hx haT
        · intro hx; omega
      | succ n =>
        have hn : n < tl.length := by simpa using h
        rw [show ((a :: tl).get ⟨n + 1, h⟩) = tl.get ⟨n, hn⟩ from rfl, ihtl n hn, htl0]
        omega

/-- On a strictly sorted structure list, the floor index of the tick of the
`i`-th marker is `i` itself (exact match). -/
theorem structureFloorIdx_exact (s : Song)
    (hstrict : List.Pairwise (fun a b : StructureMarker => a.tick < b.tick) s.structures)
    (i : ℕ) (hi : i < s.structures.length) :
    structureFloorIdx s (s.structures.get ⟨i, hi⟩).tick = i := by
  have hsorted : List.Sorted markerLE s.structures :=
    hstrict.imp (fun hab => Nat.le_of_lt hab)
  set T := (s.structures.get ⟨i, hi⟩).tick with hT
  have hlb : i < s.structures.countP (fun m => decide (m.tick ≤ T)) :=
    (marker_sorted_get_le_count_iff hsorted T i hi).mp (le_refl _)
  have hub : s.structures.countP (fun m => decide (m.tick ≤ T)) ≤ i + 1 := by
    by_contra hcon
    have hc : s.structures.countP (fun m => decide (m.tick ≤ T)) ≤ s.structures.length :=
      List.countP_le_length _
    have hi1 : i + 1 < s.structures.length := by omega
    have h1 := (marker_sorted_get_le_count_iff hsorted T (i + 1) hi1).mpr (by omega)
    have h2 : (s.structures.get ⟨i, hi⟩).tick < (s.structures.get ⟨i + 1, hi1⟩).tick :=
      List.pairwise_iff_get.mp hstrict _ _ (Fin.mk_lt_mk.mpr (by omega))
    omega
  unfold structureFloorIdx
  rw [if_neg (by omega)]
  omega

/-- C7 amended: `update_structure_at_tick` creates a marker only when the
structure list is empty (and then at tick 0); on a non-empty list it changes
in place the type of the floor marker (the latest marker whose tick is at
most the probe, clamped to index 0), and in particular, on a strictly
sorted list, a probe equal to the `i`-th marker's tick updates exactly that
marker. -/
theorem C7_amended_update_structure (s : Song) :
    (s.structures = [] → ∀ tick ty,
      (s.update_structure_at_tick tick ty).structures = [⟨0, ty, none⟩]) ∧
    (s.structures ≠ [] → ∀ tick ty,
      (s.update_structure_at_tick tick ty).structures =
        s.structures.set (structureFloorIdx s tick)
          { s.structures.getD (structureFloorIdx s tick) dummyMarker with type := ty }) ∧
    (List.Pairwise (fun a b : StructureMarker => a.tick < b.tick) s.structures →
      ∀ (i : ℕ) (hi : i < s.structures.length) (ty : ℕ),
        (s.update_structure_at_tick (s.structures.get ⟨i, hi⟩).tick ty).structures =
          s.structures.set i { s.structures.get ⟨i, hi⟩ with type := ty }) := by
  have hempty : s.structures = [] → ∀ tick ty,
      (s.update_structure_at_tick tick ty).structures = [⟨0, ty, none⟩] := by
    intro h tick ty
    have hnone : s.get_structure_at_tick tick = none := by
      simp [Song.get_structure_at_tick, lower_equal, h]
    simp [Song.update_structure_at_tick, hnone, Song.create_structure, h,
      sortMarkers, List.insertionSort, List.orderedInsert]
  have hfloor : s.structures ≠ [] → ∀ tick ty,
      (s.update_structure_at_tick tick ty).structures =
        s.structures.set (structureFloorIdx s tick)
          { s.structures.getD (structureFloorIdx s tick) dummyMarker with type := ty } := by
    intro h tick ty
    simp [Song.update_structure_at_tick, get_structure_at_tick_eq_some s tick h]
  refine ⟨hempty, hfloor, ?_⟩
  intro hstrict i hi ty
  have hne : s.structures ≠ [] := by
    intro hx
    rw [hx] at hi
    simp at hi
  rw [hfloor hne _ ty, structureFloorIdx_exact s hstrict i hi,
    List.getD_eq_get _ _ hi]

theorem C7_amended_update_structure_witness :
    (({ songS7 with structures := [] } : Song).update_structure_at_tick 7 5).structures
        = [⟨0, 5, none⟩] ∧
    (songS7.update_structure_at_tick 100 3).structures =
      songS7.structures.set (structureFloorIdx songS7 100)
        { songS7.structures.getD (structureFloorIdx songS7 100) dummyMarker with type := 3 } ∧
    (songS7.update_structure_at_tick 50 4).structures =
      songS7.structures.set 1 { songS7.structures.get ⟨1, by decide⟩ with type := 4 } := by
  refine ⟨(C7_amended_update_structure { songS7 with structures := [] }).1 rfl 7 5,
    (C7_amended_update_structure songS7).2.1 (by decide) 100 3, ?_⟩
  have h := (C7_amended_update_structure songS7).2.2 (by decide) 1 (by decide) 4
  exact h

/-! ## C8: time-signature insertion and overwrite -/

def songTS : Song := ⟨480, [⟨0, 120, 0⟩], [⟨0, 4, 4⟩], []⟩

/-- C8 counterexample: creating a time signature at the already-occupied
tick 0 inserts a second event at tick 0 (no overwrite), so the list is not
strictly sorted any more; and `overwrite_time_signature_changes` copies its
input verbatim, without sorting. -/
theorem C8_counterexample :
    (songTS.create_time_signature 0 3 4).time_signatures = [⟨0, 3, 4⟩, ⟨0, 4, 4⟩] ∧
    ¬ List.Pairwise (fun a b : TimeSignatureEvent => a.ticks < b.ticks)
      (songTS.create_time_signature 0 3 4).time_signatures ∧
    songTS.overwrite_time_signature_changes [⟨5, 4, 4⟩, ⟨3, 4, 4⟩] =
      .ok ⟨480, [⟨0, 120, 0⟩], [⟨5, 4, 4⟩, ⟨3, 4, 4⟩], []⟩ ∧
    ¬ List.Pairwise (fun a b : TimeSignatureEvent => a.ticks ≤ b.ticks)
      [(⟨5, 4, 4⟩ : TimeSignatureEvent), ⟨3, 4, 4⟩] := by
  refine ⟨by decide, by decide, by decide, by decide⟩

/-- Both branches of `create_time_signature` insert at the count of strictly
smaller ticks. -/
theorem create_time_signature_eq (s : Song) (ticks num den : ℕ) :
    s.create_time_signature ticks num den =
      { s with
        time_signatures :=
          s.time_signatures.insertIdx
            (s.time_signatures.countP (fun e => decide (e.ticks < ticks)))
            ⟨ticks, num, den⟩ } := by
  by_cases hc : s.time_signatures.countP (fun x => decide (ticks ≤ x.ticks)) = 0
  · have hall : s.time_signatures.countP (fun e => decide (e.ticks < ticks)) =
        s.time_signatures.length := by
      rw [List.countP_eq_length]
      intro e he
      have hnotle : ¬ (ticks ≤ e.ticks) := by
        intro hcon
        have : 0 < s.time_signatures.countP (fun x => decide (ticks ≤ x.ticks)) :=
          List.countP_pos.mpr ⟨e, he, by simpa using hcon⟩
        omega
      simp only [decide_eq_true_eq]
      omega
    simp only [Song.create_time_signature, greater_equal, hc, if_true, ite_true]
    rw [if_pos (by norm_num : (-1 : ℤ) < 0), hall, List.insertIdx_length_self]
  · have h3 : ¬ ((s.time_signatures.countP (fun x => decide (x.ticks < ticks)) : ℤ) < 0) := by
      omega
    simp only [Song.create_time_signature, greater_equal, hc, if_false, ite_false]
    rw [if_neg h3]
    simp only [Int.toNat_natCast]

/-- Inserting at the strict-lower-count position preserves weak sortedness
by ticks. -/
theorem ts_insert_sorted (e : TimeSignatureEvent) :
    ∀ (l : List TimeSignatureEvent),
      List.Pairwise (fun a b : TimeSignatureEvent => a.ticks ≤ b.ticks) l →
      List.Pairwise (fun a b : TimeSignatureEvent => a.ticks ≤ b.ticks)
        (l.insertIdx (l.countP (fun x => decide (x.ticks < e.ticks))) e) := by
  intro l
  induction l with
  | nil => intro _; simp
  | cons a tl ih =>
    intro hs
    have hpair := List.pairwise_cons.mp hs
    have hcnt : tl.countP (fun x => decide (x.ticks < e.ticks)) ≤ tl.length :=
      List.countP_le_length _
    by_cases ha : a.ticks < e.ticks
    · have hcons : (a :: tl).countP (fun x => decide (x.ticks < e.ticks)) =
          tl.countP (fun x => decide (x.ticks < e.ticks)) + 1 := by
        rw [List.countP_cons]
        simp [ha]
      rw [hcons, List.insertIdx_succ_cons]
      refine List.pairwise_cons.mpr ⟨?_, ih hpair.2⟩
      intro y hy
      rcases (List.mem_insertIdx hcnt).mp hy with rfl | hmem
      · omega
      · exact hpair.1 y hmem
    · have htl0 : tl.countP (fun x => decide (x.ticks < e.ticks)) = 0 := by
        refine List.countP_eq_zero.mpr ?_
        intro x hx
        have := hpair.1 x hx
        simp only [decide_eq_true_eq]
        omega
      have hcons : (a :: tl).countP (fun x => decide (x.ticks < e.ticks)) = 0 := by
        rw [List.countP_cons, htl0]
        simp [ha]
      rw [hcons]
      refine List.pairwise_cons.mpr ⟨?_, hs⟩
      intro y hy
      rcases List.mem_cons.mp hy with rfl | hmem
      · omega
      · have := hpair.1 y hmem
        omega

/-- C8 amended: `create_time_signature` inserts the new event before any
event at the same tick (both survive: length grows by 1, weak sortedness is
kept); a successful `overwrite_time_signature_changes` copies the non-empty
input list verbatim, in the given order. -/
theorem C8_amended_time_signatures (s : Song) :
    (∀ ticks num den,
      List.Pairwise (fun a b : TimeSignatureEvent => a.ticks ≤ b.ticks) s.time_signatures →
      (s.create_time_signature ticks num den).time_signatures.length =
        s.time_signatures.length + 1 ∧
      List.Pairwise (fun a b : TimeSignatureEvent => a.ticks ≤ b.ticks)
        (s.create_time_signature ticks num den).time_signatures) ∧
    (∀ evs s', s.overwrite_time_signature_changes evs = .ok s' →
      evs ≠ [] ∧ s'.time_signatures = evs) := by
  constructor
  · intro ticks num den hs
    rw [create_time_signature_eq]
    constructor
    · exact List.length_insertIdx _ _ (List.countP_le_length _)
    · exact ts_insert_sorted ⟨ticks, num, den⟩ s.time_signatures hs
  · intro evs s' hok
    unfold Song.overwrite_time_signature_changes at hok
    by_cases hevs : evs = []
    · rw [if_pos hevs] at hok
      exact absurd hok (by simp)
    · rw [if_neg hevs] at hok
      injection hok with h
      exact ⟨hevs, by rw [← h]⟩

theorem C8_amended_time_signatures_witness :
    ((songTS.create_time_signature 0 3 4).time_signatures.length =
        songTS.time_signatures.length + 1 ∧
      List.Pairwise (fun a b : TimeSignatureEvent => a.ticks ≤ b.ticks)
        (songTS.create_time_signature 0 3 4).time_signatures) ∧
    ([(⟨5, 4, 4⟩ : TimeSignatureEvent), ⟨3, 4, 4⟩] ≠ [] ∧
      (⟨480, [⟨0, 120, 0⟩], [⟨5, 4, 4⟩, ⟨3, 4, 4⟩], []⟩ : Song).time_signatures =
        [⟨5, 4, 4⟩, ⟨3, 4, 4⟩]) :=
  ⟨(C8_amended_time_signatures songTS).1 0 3 4 (by decide),
   (C8_amended_time_signatures songTS).2 [⟨5, 4, 4⟩, ⟨3, 4, 4⟩] _ (by decide)⟩

/-! ## C9: structure-list invariant -/

/-- The structure-list invariant that the code actually maintains: weakly
sorted by tick, and anchored at tick 0 when non-empty. -/
def StructInv (s : Song) : Prop :=
  List.Sorted markerLE s.structures ∧
  (s.structures ≠ [] → (s.structures.headD dummyMarker).tick = 0)

instance (s : Song) : Decidable (StructInv s) := by
  unfold StructInv
  exact instDecidableAnd

theorem sortMarkers_sorted (l : List StructureMarker) :
    List.Sorted markerLE (sortMarkers l) :=
  List.sorted_insertionSort markerLE l

theorem sortTaggedMarkers_sorted (l : List (ℕ × StructureMarker)) :
    List.Sorted markerTagLE (sortTaggedMarkers l) :=
  List.sorted_insertionSort markerTagLE l

theorem mem_sortMarkers {m : StructureMarker} {l : List StructureMarker} :
    m ∈ sortMarkers l ↔ m ∈ l :=
  (List.perm_insertionSort markerLE l).mem_iff

theorem mem_sortTaggedMarkers {p : ℕ × StructureMarker} {l : List (ℕ × StructureMarker)} :
    p ∈ sortTaggedMarkers l ↔ p ∈ l :=
  (List.perm_insertionSort markerTagLE l).mem_iff

theorem map_snd_sorted {l : List (ℕ × StructureMarker)} (h : List.Sorted markerTagLE l) :
    List.Sorted markerLE (l.map (fun p => p.2)) :=
  (List.pairwise_map).mpr h

/-- The head of a sorted marker list containing a tick-0 marker is at tick 0. -/
theorem sorted_head_tick_zero (l : List StructureMarker) (hs : List.Sorted markerLE l)
    (h0 : ∃ m ∈ l, m.tick = 0) : (l.headD dummyMarker).tick = 0 := by
  cases l with
  | nil =>
    obtain ⟨m, hm, _⟩ := h0
    simp at hm
  | cons a tl =>
    obtain ⟨m, hm, hmt⟩ := h0
    rcases List.mem_cons.mp hm with rfl | htl
    · simpa using hmt
    · have h1 : a.tick ≤ m.tick := (List.pairwise_cons.mp hs).1 m htl
      simp only [List.headD_cons]
      omega

theorem tagMarkers_cons (m0 : StructureMarker) (rest : List StructureMarker) :
    tagMarkers (m0 :: rest) = (0, m0) :: List.enumFrom 1 rest := rfl

/-- After an in-range removal leaving a non-empty list, the tagged removal
always contains a tick-0 element (the positional repair guarantees it). -/
theorem removeTagged_zero (l : List (ℕ × StructureMarker)) (i : ℕ) (hi : i < l.length)
    (hne : l.eraseIdx i ≠ []) :
    ∃ p ∈ removeTaggedStructure l i, p.2.tick = 0 := by
  unfold removeTaggedStructure
  rw [if_neg (by omega)]
  cases he : l.eraseIdx i with
  | nil => exact absurd he hne
  | cons hd tl2 =>
    obtain ⟨tg, m⟩ := hd
    show ∃ p ∈ sortTaggedMarkers
      (if 0 < m.tick then (tg, { m with tick := 0 }) :: tl2 else (tg, m) :: tl2), p.2.tick = 0
    by_cases hm : 0 < m.tick
    · rw [if_pos hm]
      exact ⟨(tg, { m with tick := 0 }),
        mem_sortTaggedMarkers.mpr (List.mem_cons_self _ _), rfl⟩
    · rw [if_neg hm]
      exact ⟨(tg, m), mem_sortTaggedMarkers.mpr (List.mem_cons_self _ _),
        show m.tick = 0 by omega⟩

/-- Removing at a positive index keeps the tick-0 head (tagged form): the
repair does not fire and the head survives. -/
theorem removeTagged_mem_head (m0 : StructureMarker) (h0 : m0.tick = 0)
    (tl : List (ℕ × StructureMarker)) (j : ℕ) :
    (0, m0) ∈ removeTaggedStructure ((0, m0) :: tl) (j + 1) := by
  unfold removeTaggedStructure
  by_cases hb : ((0, m0) :: tl).length ≤ j + 1
  · rw [if_pos hb]
    exact List.mem_cons_self _ _
  · rw [if_neg hb]
    rw [List.eraseIdx_cons_succ]
    show (0, m0) ∈ sortTaggedMarkers
      (if 0 < m0.tick then ((0 : ℕ), { m0 with tick := 0 }) :: tl.eraseIdx j
        else (0, m0) :: tl.eraseIdx j)
    rw [if_neg (by omega)]
    exact mem_sortTaggedMarkers.mpr (List.mem_cons_self _ _)

theorem map_tick_set_type : ∀ (l : List StructureMarker) (i ty : ℕ),
    ((l.set i { l.getD i dummyMarker with type := ty }).map (fun m => m.tick)) =
      l.map (fun m => m.tick) := by
  intro l
  induction l with
  | nil => intro i ty; rfl
  | cons a tl ih =>
    intro i ty
    cases i with
    | zero => simp [List.getD_cons_zero]
    | succ n =>
      simp only [List.getD_cons_succ, List.set_cons_succ, List.map_cons]
      rw [ih n ty]

theorem markerSorted_iff_map (l : List StructureMarker) :
    List.Sorted markerLE l ↔
      List.Pairwise (fun a b : ℕ => a ≤ b) (l.map (fun m => m.tick)) := by
  rw [List.Sorted, List.pairwise_map]
  exact Iff.rfl

theorem headD_tick_map_eq {l₁ l₂ : List StructureMarker}
    (h : l₁.map (fun m => m.tick) = l₂.map (fun m => m.tick)) :
    (l₁.headD dummyMarker).tick = (l₂.headD dummyMarker).tick := by
  cases l₁ <;> cases l₂ <;> simp_all

theorem repairFirst_zero (l : List StructureMarker) (hne : l ≠ []) :
    ∃ m ∈ repairFirstMarker l, m.tick = 0 := by
  cases l with
  | nil => exact absurd rfl hne
  | cons a tl =>
    show ∃ m ∈ (if 0 < a.tick then ({ a with tick := 0 } : StructureMarker) :: tl
      else a :: tl), m.tick = 0
    by_cases ha : 0 < a.tick
    · rw [if_pos ha]
      exact ⟨_, List.mem_cons_self _ _, rfl⟩
    · rw [if_neg ha]
      exact ⟨a, List.mem_cons_self _ _, by omega⟩

theorem create_structure_inv (s : Song) (hInv : StructInv s) (tick ty : ℕ)
    (nm : Option String) : StructInv (s.create_structure tick ty nm) := by
  obtain ⟨hs, hh⟩ := hInv
  constructor
  · show List.Sorted markerLE (s.create_structure tick ty nm).structures
    simp only [Song.create_structure]
    exact sortMarkers_sorted _
  · intro _
    show ((s.create_structure tick ty nm).structures.headD dummyMarker).tick = 0
    simp only [Song.create_structure]
    by_cases hemp : s.structures = []
    · rw [hemp]
      simp [sortMarkers, List.insertionSort, List.orderedInsert]
    · have hlen1 : ¬ ((s.structures ++ [(⟨tick, ty, nm⟩ : StructureMarker)]).length = 1) := by
        have : 0 < s.structures.length := List.length_pos.mpr hemp
        simp only [List.length_append, List.length_singleton]
        omega
      rw [if_neg hlen1]
      obtain ⟨m0, hm0mem, hm00⟩ : ∃ m ∈ s.structures, m.tick = 0 := by
        cases hl : s.structures with
        | nil => exact absurd hl hemp
        | cons a tl =>
          have h1 := hh hemp
          rw [hl] at h1
          exact ⟨a, List.mem_cons_self a tl, by simpa using h1⟩
      exact sorted_head_tick_zero _ (sortMarkers_sorted _)
        ⟨m0, mem_sortMarkers.mpr (List.mem_append_left _ hm0mem), hm00⟩

theorem move_structure_inv (s : Song) (hInv : StructInv s) (idx t : ℕ) :
    StructInv (s.move_structure idx t) := by
  obtain ⟨hs, hh⟩ := hInv
  by_cases hlen : idx < s.structures.length
  · by_cases hi0 : idx = 0
    · simp only [Song.move_structure, if_pos hlen, if_pos hi0]
      exact ⟨hs, hh⟩
    · have hmain : ∀ ac : List (ℕ × StructureMarker),
          (∃ p ∈ ac, p.2.tick = 0 ∧ (p.1 = idx → t = 0)) →
          List.Sorted markerLE ((sortTaggedMarkers (ac.map (fun p =>
            if p.1 = idx then (p.1, { p.2 with tick := t }) else p))).map (fun p => p.2)) ∧
          ((((sortTaggedMarkers (ac.map (fun p =>
            if p.1 = idx then (p.1, { p.2 with tick := t }) else p))).map
              (fun p => p.2)).headD dummyMarker).tick = 0) := by
        intro ac hex
        refine ⟨map_snd_sorted (sortTaggedMarkers_sorted _), ?_⟩
        obtain ⟨p, hp, h0, himp⟩ := hex
        have h0' : ((fun p => if p.1 = idx then (p.1, { p.2 with tick := t }) else p) p).2.tick
            = 0 := by
          by_cases hc : p.1 = idx
          · simp [hc, himp hc]
          · simp [hc, h0]
        refine sorted_head_tick_zero _ (map_snd_sorted (sortTaggedMarkers_sorted _)) ?_
        exact ⟨_, List.mem_map_of_mem _ (mem_sortTaggedMarkers.mpr
          (List.mem_map_of_mem _ hp)), h0'⟩
      obtain ⟨m0, rest, hsplit⟩ : ∃ m0 rest, s.structures = m0 :: rest := by
        cases hl : s.structures with
        | nil =>
          rw [hl] at hlen
          exact absurd hlen (by simp)
        | cons a tl => exact ⟨a, tl, rfl⟩
      have hm00 : m0.tick = 0 := by
        have h1 := hh (by rw [hsplit]; simp)
        rw [hsplit] at h1
        simpa using h1
      simp only [Song.move_structure, if_pos hlen, if_neg hi0]
      by_cases hprev : (s.structures.getD (idx - 1) dummyMarker).tick = t
      · rw [if_pos hprev]
        by_cases hidx1 : idx = 1
        · subst hidx1
          have ht0 : t = 0 := by
            rw [hsplit] at hprev
            simp at hprev
            omega
          have hrest_ne : rest ≠ [] := by
            intro hx
            rw [hsplit, hx] at hlen
            simp at hlen
          have hex : ∃ p ∈ removeTaggedStructure (tagMarkers s.structures) (1 - 1),
              p.2.tick = 0 ∧ (p.1 = 1 → t = 0) := by
            obtain ⟨p, hp, h0⟩ := removeTagged_zero (tagMarkers s.structures) 0
              (by rw [hsplit, tagMarkers_cons]; simp)
              (by
                rw [hsplit, tagMarkers_cons, List.eraseIdx_cons_zero]
                intro hx
                have h2 := congrArg List.length hx
                simp [List.enumFrom_length] at h2
                exact hrest_ne h2)
            exact ⟨p, hp, h0, fun _ => ht0⟩
          exact ⟨(hmain _ hex).1, fun _ => (hmain _ hex).2⟩
        · obtain ⟨k, hkeq⟩ : ∃ k, idx - 1 = k + 1 := ⟨idx - 2, by omega⟩
          have hex : ∃ p ∈ removeTaggedStructure (tagMarkers s.structures) (idx - 1),
              p.2.tick = 0 ∧ (p.1 = idx → t = 0) := by
            rw [hsplit, tagMarkers_cons, hkeq]
            exact ⟨(0, m0), removeTagged_mem_head m0 hm00 (List.enumFrom 1 rest) k,
              hm00, fun hx => absurd hx (by omega)⟩
          exact ⟨(hmain _ hex).1, fun _ => (hmain _ hex).2⟩
      · rw [if_neg hprev]
        by_cases hnext : idx < s.structures.length - 1 ∧
            (s.structures.getD (idx + 1) dummyMarker).tick = t
        · rw [if_pos hnext]
          have hex : ∃ p ∈ removeTaggedStructure (tagMarkers s.structures) (idx + 1),
              p.2.tick = 0 ∧ (p.1 = idx → t = 0) := by
            rw [hsplit, tagMarkers_cons]
            exact ⟨(0, m0), removeTagged_mem_head m0 hm00 (List.enumFrom 1 rest) idx,
              hm00, fun hx => absurd hx (by omega)⟩
          exact ⟨(hmain _ hex).1, fun _ => (hmain _ hex).2⟩
        · rw [if_neg hnext]
          have hex : ∃ p ∈ tagMarkers s.structures,
              p.2.tick = 0 ∧ (p.1 = idx → t = 0) := by
            rw [hsplit, tagMarkers_cons]
            exact ⟨(0, m0), List.mem_cons_self _ _, hm00, fun hx => absurd hx (by omega)⟩
          exact ⟨(hmain _ hex).1, fun _ => (hmain _ hex).2⟩
  · simp only [Song.move_structure, if_neg hlen]
    exact ⟨hs, hh⟩

theorem update_structure_inv (s : Song) (hInv : StructInv s) (tick ty : ℕ) :
    StructInv (s.update_structure_at_tick tick ty) := by
  by_cases hemp : s.structures = []
  · have hnone : s.get_structure_at_tick tick = none := by
      simp [Song.get_structure_at_tick, lower_equal, hemp]
    simp only [Song.update_structure_at_tick, hnone]
    exact create_structure_inv s hInv tick ty none
  · obtain ⟨hsorted, hh⟩ := hInv
    simp only [Song.update_structure_at_tick, get_structure_at_tick_eq_some s tick hemp]
    have hmap := map_tick_set_type s.structures (structureFloorIdx s tick) ty
    constructor
    · show List.Sorted markerLE (s.structures.set (structureFloorIdx s tick)
        { s.structures.getD (structureFloorIdx s tick) dummyMarker with type := ty })
      rw [markerSorted_iff_map, hmap, ← markerSorted_iff_map]
      exact hsorted
    · intro hne
      show ((s.structures.set (structureFloorIdx s tick)
        { s.structures.getD (structureFloorIdx s tick) dummyMarker with type := ty }).headD
          dummyMarker).tick = 0
      rw [headD_tick_map_eq hmap]
      exact hh hemp

theorem remove_structure_head_zero (s : Song) (idx : ℕ) (hidx : idx < s.structures.length)
    (hne : (s.remove_structure idx).structures ≠ []) :
    ((s.remove_structure idx).structures.headD dummyMarker).tick = 0 := by
  have hnotle : ¬ s.structures.length ≤ idx := by omega
  simp only [Song.remove_structure, if_neg hnotle] at hne ⊢
  have hern : s.structures.eraseIdx idx ≠ [] := by
    intro hx
    rw [hx] at hne
    simp [repairFirstMarker, sortMarkers, List.insertionSort] at hne
  obtain ⟨m, hm, hm0⟩ := repairFirst_zero _ hern
  exact sorted_head_tick_zero _ (sortMarkers_sorted _) ⟨m, mem_sortMarkers.mpr hm, hm0⟩

theorem remove_structure_inv (s : Song) (hInv : StructInv s) (idx : ℕ) :
    StructInv (s.remove_structure idx) := by
  by_cases hidx : s.structures.length ≤ idx
  · simp only [Song.remove_structure, if_pos hidx]
    exact hInv
  · constructor
    · show List.Sorted markerLE (s.remove_structure idx).structures
      simp only [Song.remove_structure, if_neg hidx]
      exact sortMarkers_sorted _
    · intro hne
      exact remove_structure_head_zero s idx (by omega) hne

def songS9 : Song := ⟨480, [⟨0, 120, 0⟩], [], [⟨0, 1, none⟩]⟩

/-- C9 counterexample: on a song whose single structure marker sits at tick
0 (all invariants hold, including strict sortedness), `create_structure` at
the occupied tick 0 produces two markers with the same tick: the
no-duplicate part of the invariant is not preserved. -/
theorem C9_counterexample :
    (songS9.create_structure 0 2 none).structures = [⟨0, 1, none⟩, ⟨0, 2, none⟩] ∧
    ¬ List.Pairwise (fun a b : StructureMarker => a.tick < b.tick)
      (songS9.create_structure 0 2 none).structures := by
  constructor
  · decide
  · decide

/-- C9 amended: every structure mutation preserves weak sortedness by tick
and the tick-0 anchoring of the first marker; `create_structure` of the sole
marker forces its tick to 0; an in-range `remove_structure` always leaves
the new first marker (if any) at tick 0.  Duplicate ticks, however, can be
created (see the counterexample), so strict sortedness is not preserved. -/
theorem C9_amended_structure_invariants (s : Song) (hInv : StructInv s) :
    (∀ tick ty nm, StructInv (s.create_structure tick ty nm)) ∧
    (∀ idx t, StructInv (s.move_structure idx t)) ∧
    (∀ tick ty, StructInv (s.update_structure_at_tick tick ty)) ∧
    (∀ idx, StructInv (s.remove_structure idx)) ∧
    (s.structures = [] → ∀ tick ty nm,
      (s.create_structure tick ty nm).structures = [⟨0, ty, nm⟩]) ∧
    (∀ idx, idx < s.structures.length → (s.remove_structure idx).structures ≠ [] →
      ((s.remove_structure idx).structures.headD dummyMarker).tick = 0) := by
  refine ⟨fun tick ty nm => create_structure_inv s hInv tick ty nm,
    fun idx t => move_structure_inv s hInv idx t,
    fun tick ty => update_structure_inv s hInv tick ty,
    fun idx => remove_structure_inv s hInv idx,
    ?_,
    fun idx hidx hne => remove_structure_head_zero s idx hidx hne⟩
  intro hemp tick ty nm
  simp [Song.create_structure, hemp, sortMarkers, List.insertionSort, List.orderedInsert]

theorem C9_amended_structure_invariants_witness :
    StructInv (songS9.create_structure 300 2 none) ∧
    StructInv (songS9.move_structure 1 0) ∧
    (({ songS9 with structures := [] } : Song).create_structure 500 3 none).structures
      = [⟨0, 3, none⟩] := by
  have h1 := C9_amended_structure_invariants songS9 (by decide)
  have h2 := C9_amended_structure_invariants { songS9 with structures := [] } (by decide)
  exact ⟨h1.1 300 2 none, h1.2.1 1 0, h2.2.2.2.2.1 rfl 500 3 none⟩
